import Mathlib

/-!
# Verification development for `blockchain/blockchain.go`

A shallow embedding of the block / proof-of-work / chain-store / iterator
code, followed by theorems about it.

Modelling conventions
* A Go `[]byte` is a `List Byte`; a nil slice and an empty slice are both `[]`.
* Go `int64` and `int` (64-bit, because `math.MaxInt64` is assigned to an
  `int`) are `Int`; the ranges are stated as hypotheses where they matter.
* The theorems hold for any hash function to 32 bytes, `H : HashFn`, hence
  for `sha256`, which is `sha256.Sum256`, the one the program uses. Instances
  computed with `sha256` are runs of the program; `hashToy` is a second, small
  hash function used in a few instances.
* `time.Now().Unix()` is a parameter `now`.
* Console output (`fmt.Printf`) is not part of the state.
* `encoding/gob` is modelled by its wire format for the type `Block`; its cap
  on the size of a message is left out.
* The bolt bucket is a finite map with `Get` and `Put`. `Put` stands for a
  write that bolt accepts: a key of 1 to `maxKeySize` bytes and a value of at
  most `maxValueSize` bytes. The keys written are 32-byte hashes and the tip
  key; the theorems about stored records bound the payload so that every
  record written is within that limit (`ValidInput`, `FitsStore`).
  Opening the database is assumed to succeed.
-/

namespace BC

set_option maxRecDepth 100000

/-! ## Bytes and integers -/

abbrev Byte := Fin 256

/-- Hash function standing for `sha256.Sum256`: its result type is `[32]byte`. -/
structure HashFn where
  sum256 : List Byte → List Byte
  len : ∀ d, (sum256 d).length = 32

/-- Digit table `"0123456789abcdef"` of `fmt` for the verb `%x`. -/
def hexDigit (d : Nat) : Byte :=
  if d < 10 then Fin.ofNat (48 + d) else Fin.ofNat (87 + d)

/-- Digits of `n` in base `base`, most significant first, pushed in front of
`acc`: the loop `for u >= base { emit u % base; u /= base }; emit u`. -/
def digitsAux (base : Nat) : Nat → Nat → List Nat → List Nat
  | 0, _, acc => acc
  | fuel + 1, n, acc =>
    if n < base then n :: acc
    else digitsAux base fuel (n / base) (n % base :: acc)

/-- Lowercase hexadecimal text of a natural number; `"0"` for zero. -/
def hexNat (n : Nat) : List Byte := (digitsAux 16 (n + 1) n []).map hexDigit

/-- `IntTohex(in) = []byte(fmt.Sprintf("%x", in))`: sign, then magnitude. -/
def IntTohex (i : Int) : List Byte :=
  if i < 0 then (45 : Byte) :: hexNat i.natAbs else hexNat i.natAbs

/-- Value of a byte string read as a big-endian unsigned integer
(`big.Int.SetBytes`). -/
def beNat (bs : List Byte) : Nat := bs.foldl (fun acc b => acc * 256 + b.val) 0

/-- Value of a digit list, most significant digit first. -/
def ofDigits (base : Nat) (ds : List Nat) : Nat := ds.foldl (fun a d => a * base + d) 0

/-- The characters `0`-`9` and `a`-`f`. -/
def isLowerHex (c : Byte) : Prop := (48 ≤ c.val ∧ c.val ≤ 57) ∨ (97 ≤ c.val ∧ c.val ≤ 102)

/-- The number that a lowercase hexadecimal text denotes. -/
def hexValue (t : List Byte) : Nat :=
  t.foldl (fun a c => a * 16 + (if c.val ≤ 57 then c.val - 48 else c.val - 87)) 0

/-! ## Block -/

structure Block where
  Timestamp : Int
  Data : List Byte
  PrevBlockHash : List Byte
  Hash : List Byte
  Nonce : Int
deriving DecidableEq

/-! ## Proof of work -/

structure ProofOfWork where
  block : Block
  target : Nat
deriving DecidableEq

def targetBits : Nat := 4

def maxNonce : Int := 9223372036854775807

def NewProofOfWork (b : Block) : ProofOfWork :=
  { block := b, target := 1 <<< (256 - targetBits) }

def ProofOfWork.prepareData (pow : ProofOfWork) (nonce : Int) : List Byte :=
  List.flatten
    [ pow.block.PrevBlockHash,
      pow.block.Data,
      IntTohex pow.block.Timestamp,
      IntTohex (targetBits : Int),
      IntTohex nonce ]

/-- The loop of `Run`, with the loop variables `nonce` and `hash` as arguments.
`fuel` bounds the number of iterations; `Run` supplies `maxNonce` of them,
which is as many as the loop condition allows. -/
def ProofOfWork.runLoop (H : HashFn) (pow : ProofOfWork) :
    Nat → Int → List Byte → Int × List Byte
  | 0, nonce, hash => (nonce, hash)
  | fuel + 1, nonce, hash =>
    if nonce < maxNonce then
      let data := pow.prepareData nonce
      let hash1 := H.sum256 data
      if beNat hash1 < pow.target then (nonce, hash1)
      else ProofOfWork.runLoop H pow fuel (nonce + 1) hash1
    else (nonce, hash)

def ProofOfWork.Run (H : HashFn) (pow : ProofOfWork) : Int × List Byte :=
  pow.runLoop H maxNonce.toNat 0 (List.replicate 32 0)

def ProofOfWork.Validate (H : HashFn) (pow : ProofOfWork) : Bool :=
  let data := pow.prepareData pow.block.Nonce
  let hash := H.sum256 data
  decide (beNat hash < pow.target)

def NewBlock (H : HashFn) (now : Int) (data : List Byte) (prevBlockHash : List Byte) : Block :=
  let block : Block := ⟨now, data, prevBlockHash, [], 0⟩
  let pow := NewProofOfWork block
  let r := pow.Run H
  { block with Hash := r.2, Nonce := r.1 }

/-- Bytes of the string literal `"Genesis Block"`. -/
def genesisData : List Byte := [71, 101, 110, 101, 115, 105, 115, 32, 66, 108, 111, 99, 107]

def NewGenesisBlock (H : HashFn) (now : Int) : Block :=
  NewBlock H now genesisData []

/-! ## Serialization: the `encoding/gob` wire format for `Block`

`Serialize` runs a fresh `gob.Encoder` on the block, which emits two
length-prefixed messages: the descriptor of the struct type (type id 65) and
the value.  A struct value is the sequence of its non-zero fields, each
preceded by the distance from the previous field number, closed by a zero. -/

/-- Bytes of an ASCII string literal. -/
def ascii (s : String) : List Byte := s.toList.map (fun c => Fin.ofNat c.toNat)

/-- Unsigned integer (a `uint64`): one byte if at most `0x7f`, otherwise the
negated byte count followed by the minimal big-endian bytes. -/
def encodeUint (x : Nat) : List Byte :=
  if x ≤ 0x7F then [Fin.ofNat x]
  else
    let bs := digitsAux 256 8 x []
    Fin.ofNat (256 - bs.length) :: bs.map Fin.ofNat

/-- Signed integer (an `int64`): the sign goes to bit 0, the complement is
taken of a negative number. -/
def encodeInt (i : Int) : List Byte :=
  if i < 0 then encodeUint ((-i - 1).toNat * 2 + 1) else encodeUint (i.toNat * 2)

def decodeUint : List Byte → Option (Nat × List Byte)
  | [] => none
  | b :: rest =>
    if b.val ≤ 0x7F then some (b.val, rest)
    else
      let n := 256 - b.val
      if n > 8 then none
      else if rest.length < n then none
      else some (beNat (rest.take n), rest.drop n)

def decodeInt (d : List Byte) : Option (Int × List Byte) :=
  match decodeUint d with
  | none => none
  | some (x, rest) =>
    if x % 2 = 1 then some (-((x / 2 : Nat) : Int) - 1, rest) else some (((x / 2 : Nat) : Int), rest)

/-- Encoder state inside a struct: the last field number sent. Each
operation returns the new field number and the bytes it wrote. -/
def encInt (field : Int) (fieldnum : Int) (value : Int) : Int × List Byte :=
  if value ≠ 0 then (field, encodeUint (field - fieldnum).toNat ++ encodeInt value)
  else (fieldnum, [])

def encUint8Array (field : Int) (fieldnum : Int) (b : List Byte) : Int × List Byte :=
  if b.length > 0 then (field, encodeUint (field - fieldnum).toNat ++ encodeUint b.length ++ b)
  else (fieldnum, [])

def encStructTerminator : List Byte := encodeUint 0

/-- The fields of a `Block` value in wire order. -/
def encodeStruct (b : Block) : List Byte :=
  let s0 := encInt 0 (-1) b.Timestamp
  let s1 := encUint8Array 1 s0.1 b.Data
  let s2 := encUint8Array 2 s1.1 b.PrevBlockHash
  let s3 := encUint8Array 3 s2.1 b.Hash
  let s4 := encInt 4 s3.1 b.Nonce
  s0.2 ++ s1.2 ++ s2.2 ++ s3.2 ++ s4.2 ++ encStructTerminator

/-- Type id that a fresh encoder assigns to the first user type. -/
def blockTypeId : Int := 65

/-- Wire type ids of the field types: `int` is 2, `[]byte` is 5. -/
def blockFields : List (String × Int) :=
  [("Timestamp", 2), ("Data", 5), ("PrevBlockHash", 5), ("Hash", 5), ("Nonce", 2)]

/-- Body of the type-descriptor message: minus the type id, then the
`wireType` value whose `StructT` field describes `Block`. -/
def blockTypeDef : List Byte :=
  encodeInt (-blockTypeId) ++
  [3] ++
    [1] ++
      [1] ++ encodeUint 5 ++ ascii "Block" ++
      [1] ++ encodeInt blockTypeId ++
      [0] ++
    [1] ++ encodeUint blockFields.length ++
      (blockFields.map (fun f =>
        [1] ++ encodeUint f.1.length ++ ascii f.1 ++ [1] ++ encodeInt f.2 ++ [0])).flatten ++
    [0] ++
  [0]

/-- A message on the wire: its length, then its bytes. -/
def writeMessage (body : List Byte) : List Byte := encodeUint body.length ++ body

def Block.Serialize (b : Block) : List Byte :=
  writeMessage blockTypeDef ++ writeMessage (encodeInt blockTypeId ++ encodeStruct b)

/-- Read one length-prefixed message: its body and what follows it. -/
def recvMessage (d : List Byte) : Option (List Byte × List Byte) :=
  match decodeUint d with
  | none => none
  | some (n, rest) => if rest.length < n then none else some (rest.take n, rest.drop n)

/-- The field loop of the struct decoder, writing into `block` as it goes;
an error stops the loop and leaves the fields decoded so far. Every
iteration consumes a byte, so `fuel = buf.length` always suffices. -/
def decodeStruct : Nat → Int → List Byte → Block → Block
  | 0, _, _, block => block
  | fuel + 1, fieldnum, buf, block =>
    if buf.length = 0 then block
    else
      match decodeUint buf with
      | none => block
      | some (delta, buf1) =>
        if delta ≥ 2 ^ 63 then block
        else if delta = 0 then block
        else if fieldnum ≥ 5 - (delta : Int) then block
        else
          let fieldnum1 := fieldnum + delta
          if fieldnum1 = 0 ∨ fieldnum1 = 4 then
            match decodeInt buf1 with
            | none => block
            | some (v, buf2) =>
              decodeStruct fuel fieldnum1 buf2
                (if fieldnum1 = 0 then { block with Timestamp := v } else { block with Nonce := v })
          else
            match decodeUint buf1 with
            | none => block
            | some (n, buf2) =>
              if n ≥ 2 ^ 63 ∨ buf2.length < n then block
              else
                let v := buf2.take n
                decodeStruct fuel fieldnum1 (buf2.drop n)
                  (if fieldnum1 = 1 then { block with Data := v }
                   else if fieldnum1 = 2 then { block with PrevBlockHash := v }
                   else { block with Hash := v })

/-- `DeserializeBlock(d, block)`: the decoder error is dropped, so the result
is the block as the decoder left it. Only the type descriptor that
`Serialize` writes is recognised; any other stream is an error. -/
def DeserializeBlock (d : List Byte) (block : Block) : Block :=
  match recvMessage d with
  | none => block
  | some (m1, d1) =>
    if m1 ≠ blockTypeDef then block
    else
      match recvMessage d1 with
      | none => block
      | some (m2, _) =>
        match decodeInt m2 with
        | none => block
        | some (id, body) =>
          if id ≠ blockTypeId then block
          else decodeStruct body.length (-1) body block

def Block.Clear (_b : Block) : Block :=
  { Timestamp := 0, Data := [], PrevBlockHash := [], Hash := [], Nonce := 0 }

/-- Ranges that the Go types give the fields: `int64` and `int` are 64-bit,
and the byte slices of one block fit in the address space. -/
def Block.WF (b : Block) : Prop :=
  -(2 ^ 63 : Int) ≤ b.Timestamp ∧ b.Timestamp < 2 ^ 63 ∧
  -(2 ^ 63 : Int) ≤ b.Nonce ∧ b.Nonce < 2 ^ 63 ∧
  b.Data.length + b.PrevBlockHash.length + b.Hash.length < 2 ^ 63

instance (b : Block) : Decidable b.WF := by
  unfold Block.WF; infer_instance

/-! ## Chain store, chain manager and iterator

The bolt bucket `blk` is a finite map from keys to values. `Get` of an absent
key is the nil slice. A database file in which the bucket does not exist yet
is `none`. -/

abbrev Bucket := List Byte → Option (List Byte)

def Bucket.empty : Bucket := fun _ => none

def Bucket.Get (b : Bucket) (key : List Byte) : List Byte := (b key).getD []

/-- The largest value and the largest key that bolt stores (`MaxValueSize`,
`MaxKeySize`). -/
def maxValueSize : Nat := 2147483646

def maxKeySize : Nat := 32768

/-- A write that bolt accepts. Beyond the limits above bolt returns an error
and writes nothing; on such inputs this definition is not the store. -/
def Bucket.Put (b : Bucket) (key value : List Byte) : Bucket :=
  fun k => if k = key then some value else b k

/-- The reserved key `[]byte{'l'}` under which the tip hash is kept. -/
def tipKey : List Byte := [108]

structure Blockchain where
  tip : List Byte
  db : Bucket

/-- `NewBlockchain()` on a database whose bucket is `db`; `now` is the clock
reading used if a genesis block has to be mined. -/
def NewBlockchain (H : HashFn) (now : Int) (db : Option Bucket) : Blockchain :=
  match db with
  | none =>
    let genesis := NewGenesisBlock H now
    let b := Bucket.empty
    let b := b.Put genesis.Hash genesis.Serialize
    let b := b.Put tipKey genesis.Hash
    { tip := genesis.Hash, db := b }
  | some b => { tip := b.Get tipKey, db := b }

def Blockchain.AddBlock (H : HashFn) (now : Int) (bc : Blockchain) (data : List Byte) :
    Blockchain :=
  let lastHash := bc.db.Get tipKey
  let newBlock := NewBlock H now data lastHash
  let b := bc.db.Put newBlock.Hash newBlock.Serialize
  let b := b.Put tipKey newBlock.Hash
  { tip := newBlock.Hash, db := b }

structure BlockchainIterator where
  currentHash : List Byte
  db : Bucket

def Blockchain.Iterator (bc : Blockchain) : BlockchainIterator :=
  { currentHash := bc.tip, db := bc.db }

/-- `Next(block)`: the result, the iterator and the out block after the call.
The closure handed to `db.View` always returns nil, so the `err != nil`
branch is never taken. -/
def BlockchainIterator.Next (iter : BlockchainIterator) (block : Block) :
    Bool × BlockchainIterator × Block :=
  let block := block.Clear
  if iter.currentHash.length = 0 then (false, iter, block)
  else
    let encodedBlock := iter.db.Get iter.currentHash
    let block := DeserializeBlock encodedBlock block
    (true, { iter with currentHash := block.PrevBlockHash }, block)

/-- The loop `for iter.Next(block) { ... }` of `main`: the blocks yielded, in
order, by at most `fuel` calls that return true. -/
def BlockchainIterator.drain : Nat → BlockchainIterator → Block → List Block
  | 0, _, _ => []
  | fuel + 1, iter, block =>
    let r := iter.Next block
    if r.1 then r.2.2 :: BlockchainIterator.drain fuel r.2.1 r.2.2 else []

/-- Results of `k` successive calls of `Next` on the same iterator and out block. -/
def BlockchainIterator.results : Nat → BlockchainIterator → Block → List Bool
  | 0, _, _ => []
  | k + 1, iter, block =>
    let r := iter.Next block
    r.1 :: BlockchainIterator.results k r.2.1 r.2.2

/-- The iterator and the out block after `k` successive calls of `Next`. -/
def BlockchainIterator.after : Nat → BlockchainIterator → Block → BlockchainIterator × Block
  | 0, iter, block => (iter, block)
  | k + 1, iter, block =>
    let r := iter.Next block
    BlockchainIterator.after k r.2.1 r.2.2

/-- Results of successive calls of `Next` on the same iterator and out block
when the database, which the iterator only holds a handle to, has the contents
`db` at the time of the call, for each `db` of the list in turn. -/
def BlockchainIterator.resultsOver :
    List Bucket → BlockchainIterator → Block → List Bool
  | [], _, _ => []
  | db :: rest, iter, block =>
    let r := ({ iter with db := db } : BlockchainIterator).Next block
    r.1 :: BlockchainIterator.resultsOver rest r.2.1 r.2.2

/-- A chain opened on an empty database at time `now0`, followed by one
`AddBlock(data)` at time `now` for each `(now, data)` of `adds`. -/
def buildChain (H : HashFn) (now0 : Int) (adds : List (Int × List Byte)) : Blockchain :=
  adds.foldl (fun bc a => bc.AddBlock H a.1 a.2) (NewBlockchain H now0 none)

/-- The blocks mined by successive `AddBlock` calls on a chain whose tip is
`prev`, oldest first. -/
def minedFrom (H : HashFn) : List Byte → List (Int × List Byte) → List Block
  | _, [] => []
  | prev, a :: rest =>
    let b := NewBlock H a.1 a.2 prev
    b :: minedFrom H b.Hash rest

/-- Every block mined by `buildChain`, genesis first. -/
def minedBlocks (H : HashFn) (now0 : Int) (adds : List (Int × List Byte)) : List Block :=
  let g := NewGenesisBlock H now0
  g :: minedFrom H g.Hash adds

/-- The walk from `cur` along the `PrevBlockHash` links through `db` passes
exactly the blocks `blocks`, each stored under its 32-byte hash, and ends at
the empty hash. -/
def Linked (db : Bucket) : List Byte → List Block → Prop
  | cur, [] => cur = []
  | cur, b :: rest =>
    cur = b.Hash ∧ b.Hash.length = 32 ∧ db.Get b.Hash = b.Serialize ∧ b.WF ∧
      Linked db b.PrevBlockHash rest

/-- What holds of the bucket once a chain has been opened: the tip entry is
the 32-byte hash of a block whose record is stored under that hash, and every
key is either the tip key or the 32-byte hash of the block recorded under it. -/
def StoreInv (db : Bucket) : Prop :=
  (∃ b : Block, db.Get tipKey = b.Hash ∧ db tipKey = some b.Hash ∧ b.Hash.length = 32 ∧
    db b.Hash = some b.Serialize) ∧
  (∀ k : List Byte, db k ≠ none →
    k = tipKey ∨ (k.length = 32 ∧ ∃ b : Block, b.Hash = k ∧ db k = some b.Serialize))

/-- A payload whose block record the store accepts: the record is the payload
and less than 256 bytes more, and has to fit in a value of the store. -/
def FitsStore (data : List Byte) : Prop := data.length + 256 ≤ maxValueSize

instance (data : List Byte) : Decidable (FitsStore data) := by
  unfold FitsStore; infer_instance

/-- A clock reading and a payload for which `AddBlock` stores the block: the
clock is an `int64` and the record of the block fits in a value of the store. -/
def ValidInput (now : Int) (data : List Byte) : Prop :=
  -(2 ^ 63 : Int) ≤ now ∧ now < 2 ^ 63 ∧ FitsStore data

/-- Every entry of the bucket is one that bolt accepts. -/
def StoreFits (db : Bucket) : Prop :=
  ∀ k v : List Byte, db k = some v →
    0 < k.length ∧ k.length ≤ maxKeySize ∧ v.length ≤ maxValueSize

instance (now : Int) (data : List Byte) : Decidable (ValidInput now data) := by
  unfold ValidInput; infer_instance

/-- What holds of the bucket of a chain whatever the hashes are: the tip entry
names a key of the bucket other than the tip key, and under every key other
than the tip key lies the record of a block returned by `NewBlock`, with that
key as its hash, whose predecessor is empty or again a key of the bucket. -/
def StoreMined (H : HashFn) (db : Bucket) : Prop :=
  (db.Get tipKey ≠ tipKey ∧ db (db.Get tipKey) ≠ none) ∧
  (∀ k : List Byte, k ≠ tipKey → db k ≠ none →
    ∃ (now : Int) (data prev : List Byte),
      db k = some (NewBlock H now data prev).Serialize ∧
      (NewBlock H now data prev).Hash = k ∧ (NewBlock H now data prev).WF ∧
      (prev = [] ∨ (prev ≠ tipKey ∧ db prev ≠ none)))

/-! ## SHA-256

`crypto/sha256.Sum256`, after FIPS 180-4, on 32-bit words kept as natural
numbers below `2 ^ 32`. -/

namespace SHA256

def rotr (x n : Nat) : Nat := (x >>> n) ||| ((x <<< (32 - n)) % 4294967296)

def ch (x y z : Nat) : Nat := (x &&& y) ^^^ ((4294967295 - x) &&& z)

def maj (x y z : Nat) : Nat := (x &&& y) ^^^ (x &&& z) ^^^ (y &&& z)

def bigSigma0 (x : Nat) : Nat := rotr x 2 ^^^ rotr x 13 ^^^ rotr x 22

def bigSigma1 (x : Nat) : Nat := rotr x 6 ^^^ rotr x 11 ^^^ rotr x 25

def smallSigma0 (x : Nat) : Nat := rotr x 7 ^^^ rotr x 18 ^^^ (x >>> 3)

def smallSigma1 (x : Nat) : Nat := rotr x 17 ^^^ rotr x 19 ^^^ (x >>> 10)

/-- The round constants: the first 32 bits of the fractional parts of the cube
roots of the first 64 primes. -/
def K : List Nat :=
  [0x428a2f98, 0x71374491, 0xb5c0fbcf, 0xe9b5dba5, 0x3956c25b, 0x59f111f1, 0x923f82a4, 0xab1c5ed5,
   0xd807aa98, 0x12835b01, 0x243185be, 0x550c7dc3, 0x72be5d74, 0x80deb1fe, 0x9bdc06a7, 0xc19bf174,
   0xe49b69c1, 0xefbe4786, 0x0fc19dc6, 0x240ca1cc, 0x2de92c6f, 0x4a7484aa, 0x5cb0a9dc, 0x76f988da,
   0x983e5152, 0xa831c66d, 0xb00327c8, 0xbf597fc7, 0xc6e00bf3, 0xd5a79147, 0x06ca6351, 0x14292967,
   0x27b70a85, 0x2e1b2138, 0x4d2c6dfc, 0x53380d13, 0x650a7354, 0x766a0abb, 0x81c2c92e, 0x92722c85,
   0xa2bfe8a1, 0xa81a664b, 0xc24b8b70, 0xc76c51a3, 0xd192e819, 0xd6990624, 0xf40e3585, 0x106aa070,
   0x19a4c116, 0x1e376c08, 0x2748774c, 0x34b0bcb5, 0x391c0cb3, 0x4ed8aa4a, 0x5b9cca4f, 0x682e6ff3,
   0x748f82ee, 0x78a5636f, 0x84c87814, 0x8cc70208, 0x90befffa, 0xa4506ceb, 0xbef9a3f7, 0xc67178f2]

/-- The eight working variables, also the chaining value. -/
structure State where
  a : Nat
  b : Nat
  c : Nat
  d : Nat
  e : Nat
  f : Nat
  g : Nat
  h : Nat
deriving DecidableEq

/-- The initial hash value. -/
def init : State :=
  ⟨0x6a09e667, 0xbb67ae85, 0x3c6ef372, 0xa54ff53a, 0x510e527f, 0x9b05688c, 0x1f83d9ab, 0x5be0cd19⟩

/-- The padded message: a `1` bit, zero bits up to 56 modulo 64 bytes, and the
length in bits as a 64-bit big-endian number. -/
def pad (d : List Byte) : List Nat :=
  d.map (fun b => b.val) ++ [128] ++ List.replicate ((119 - d.length % 64) % 64) 0 ++
    (List.range 8).map (fun i => (d.length * 8) >>> (8 * (7 - i)) % 256)

/-- Big-endian 32-bit words of a sequence of bytes. -/
def toWords : List Nat → List Nat
  | b0 :: b1 :: b2 :: b3 :: rest =>
    (b0 * 16777216 + b1 * 65536 + b2 * 256 + b3) :: toWords rest
  | _ => []

/-- The message schedule: `n` more words after the 16 words of the window `w`. -/
def schedule : Nat → List Nat → List Nat
  | 0, _ => []
  | n + 1, w =>
    let x := (smallSigma1 (w.getD 14 0) + w.getD 9 0 + smallSigma0 (w.getD 1 0) + w.getD 0 0)
      % 4294967296
    x :: schedule n (w.drop 1 ++ [x])

/-- One round with round constant `k` and schedule word `w`. -/
def round (s : State) (k w : Nat) : State :=
  let t1 := (s.h + bigSigma1 s.e + ch s.e s.f s.g + k + w) % 4294967296
  let t2 := (bigSigma0 s.a + maj s.a s.b s.c) % 4294967296
  ⟨(t1 + t2) % 4294967296, s.a, s.b, s.c, (s.d + t1) % 4294967296, s.e, s.f, s.g⟩

def rounds : List Nat → List Nat → State → State
  | k :: ks, w :: ws, s => rounds ks ws (round s k w)
  | _, _, s => s

/-- The compression function on one 64-byte block. -/
def compress (s : State) (block : List Nat) : State :=
  let w := toWords block
  let r := rounds K (w ++ schedule 48 w) s
  ⟨(s.a + r.a) % 4294967296, (s.b + r.b) % 4294967296, (s.c + r.c) % 4294967296,
    (s.d + r.d) % 4294967296, (s.e + r.e) % 4294967296, (s.f + r.f) % 4294967296,
    (s.g + r.g) % 4294967296, (s.h + r.h) % 4294967296⟩

/-- The blocks of the padded message, one after the other. -/
def blocks : Nat → List Nat → State → State
  | 0, _, s => s
  | n + 1, m, s => blocks n (m.drop 64) (compress s (m.take 64))

def wordBytes (w : Nat) : List Byte :=
  [Fin.ofNat (w >>> 24), Fin.ofNat (w >>> 16), Fin.ofNat (w >>> 8), Fin.ofNat w]

def digest (s : State) : List Byte :=
  wordBytes s.a ++ wordBytes s.b ++ wordBytes s.c ++ wordBytes s.d ++
    wordBytes s.e ++ wordBytes s.f ++ wordBytes s.g ++ wordBytes s.h

def Sum256 (d : List Byte) : List Byte :=
  digest (blocks ((pad d).length / 64) (pad d) init)

end SHA256

/-- The hash function of the program, `sha256.Sum256`. -/
def sha256 : HashFn := ⟨SHA256.Sum256, fun _ => rfl⟩


/-! ## A second hash function and the payloads of the demo -/

/-- Small mixing function: the first byte depends on every input byte. -/
def mix (d : List Byte) : Nat := d.foldl (fun a b => (a * 33 + b.val + 7) % 65536) 5381

/-- Toy hash: 32 bytes derived from `mix`. -/
def hashToy : HashFn :=
  ⟨fun d => (List.range 32).map (fun i => Fin.ofNat ((mix d / (i + 1) + i * mix d) % 251)), by simp⟩

/-- The payloads of the demo in `main`. -/
def payload1 : List Byte := ascii "send 1 btc to ivan"

def payload2 : List Byte := ascii "send 2 more btc to ivan"

/-- A bucket whose tip entry names a hash under which nothing is stored. -/
def danglingStore : Bucket := Bucket.empty.Put tipKey (List.replicate 32 1)

/-- A bucket whose tip entry names a hash under which a record is stored that
is not the serialization of a block. -/
def garbledStore : Bucket :=
  (Bucket.empty.Put (List.replicate 32 1) [1, 2, 3]).Put tipKey (List.replicate 32 1)

/-! ## Theorems -/

/-! ### Positional digits -/

theorem digitsAux_acc (base : Nat) :
    ∀ (fuel n : Nat) (acc : List Nat),
      digitsAux base fuel n acc = digitsAux base fuel n [] ++ acc := by
  intro fuel
  induction fuel with
  | zero => intro n acc; simp [digitsAux]
  | succ fuel ih =>
    intro n acc
    by_cases h : n < base
    · simp [digitsAux, h]
    · simp only [digitsAux, h, if_false]
      rw [ih (n / base) (n % base :: acc), ih (n / base) [n % base]]
      simp

theorem digitsAux_succ (base fuel n : Nat) :
    digitsAux base (fuel + 1) n [] =
      if n < base then [n] else digitsAux base fuel (n / base) [] ++ [n % base] := by
  by_cases h : n < base
  · simp [digitsAux, h]
  · simp only [digitsAux, h, if_false]
    exact digitsAux_acc base fuel (n / base) [n % base]

theorem ofDigits_snoc (base : Nat) (ds : List Nat) (d : Nat) :
    ofDigits base (ds ++ [d]) = ofDigits base ds * base + d := by
  simp [ofDigits, List.foldl_append]

/-- With enough fuel the digits denote the number. -/
theorem digitsAux_value (base : Nat) :
    ∀ (fuel n : Nat), n < base ^ fuel → ofDigits base (digitsAux base fuel n []) = n := by
  intro fuel
  induction fuel with
  | zero =>
    intro n hn
    have : n = 0 := by simpa using hn
    subst this
    rfl
  | succ fuel ih =>
    intro n hn
    rw [digitsAux_succ]
    by_cases h : n < base
    · simp [h, ofDigits]
    · rw [if_neg h, ofDigits_snoc]
      have hdiv : n / base < base ^ fuel := by
        apply Nat.div_lt_of_lt_mul
        rw [Nat.pow_succ, Nat.mul_comm] at hn
        exact hn
      rw [ih (n / base) hdiv]
      exact Nat.div_add_mod' n base

theorem digitsAux_lt (base : Nat) (hb : 0 < base) :
    ∀ (fuel n : Nat), ∀ d ∈ digitsAux base fuel n [], d < base := by
  intro fuel
  induction fuel with
  | zero => intro n d hd; simp [digitsAux] at hd
  | succ fuel ih =>
    intro n d hd
    rw [digitsAux_succ] at hd
    by_cases h : n < base
    · rw [if_pos h] at hd
      have : d = n := by simpa using hd
      omega
    · rw [if_neg h] at hd
      rcases List.mem_append.mp hd with h1 | h1
      · exact ih _ d h1
      · have : d = n % base := by simpa using h1
        rw [this]
        exact Nat.mod_lt _ hb

theorem digitsAux_ne_nil (base fuel n : Nat) : digitsAux base (fuel + 1) n [] ≠ [] := by
  rw [digitsAux_succ]
  by_cases h : n < base <;> simp [h]

theorem digitsAux_length_le (base : Nat) :
    ∀ (fuel n : Nat), (digitsAux base fuel n []).length ≤ fuel := by
  intro fuel
  induction fuel with
  | zero => intro n; simp [digitsAux]
  | succ fuel ih =>
    intro n
    rw [digitsAux_succ]
    by_cases h : n < base
    · simp [h]
    · rw [if_neg h, List.length_append]
      have := ih (n / base)
      simp only [List.length_singleton]
      omega

/-- With enough fuel the first digit of a positive number is not zero. -/
theorem digitsAux_head (base : Nat) (hb : 1 < base) :
    ∀ (fuel n : Nat), n < base ^ fuel → 0 < n →
      (digitsAux base fuel n []).head? ≠ some 0 := by
  intro fuel
  induction fuel with
  | zero =>
    intro n hn hpos
    simp at hn
    omega
  | succ fuel ih =>
    intro n hn hpos
    rw [digitsAux_succ]
    by_cases h : n < base
    · simp only [h, if_true, List.head?_cons, ne_eq, Option.some.injEq]
      omega
    · rw [if_neg h]
      have hdiv : n / base < base ^ fuel := by
        apply Nat.div_lt_of_lt_mul
        rw [Nat.pow_succ, Nat.mul_comm] at hn
        exact hn
      have hdpos : 0 < n / base := Nat.div_pos (Nat.le_of_not_lt h) (by omega)
      have hih := ih (n / base) hdiv hdpos
      cases hfuel : fuel with
      | zero =>
        rw [hfuel] at hdiv
        simp at hdiv
        omega
      | succ f =>
        rw [hfuel] at hih
        have hne := digitsAux_ne_nil base f (n / base)
        cases hd : digitsAux base (f + 1) (n / base) [] with
        | nil => exact absurd hd hne
        | cons x xs =>
          rw [hd] at hih
          simpa using hih

/-! ### Hexadecimal text -/

theorem hexDigit_val : ∀ d : Fin 16,
    isLowerHex (hexDigit d.val) ∧
    (if (hexDigit d.val).val ≤ 57 then (hexDigit d.val).val - 48 else (hexDigit d.val).val - 87)
      = d.val ∧
    (hexDigit d.val = 48 → d.val = 0) := by
  unfold isLowerHex
  decide

theorem hexValue_map (ds : List Nat) (h : ∀ d ∈ ds, d < 16) :
    hexValue (ds.map hexDigit) = ofDigits 16 ds := by
  unfold hexValue ofDigits
  generalize 0 = a
  induction ds generalizing a with
  | nil => rfl
  | cons d ds ih =>
    have hd : d < 16 := h d (List.mem_cons_self _ _)
    have hv := (hexDigit_val ⟨d, hd⟩).2.1
    simp only [List.map_cons, List.foldl_cons]
    rw [hv]
    exact ih (fun x hx => h x (List.mem_cons_of_mem _ hx)) _

/-- The text that `hexNat` produces: lowercase hexadecimal digits that denote
the number, at least one, and without a leading zero unless the number is 0. -/
theorem hexNat_spec (n : Nat) :
    (∀ c ∈ hexNat n, isLowerHex c) ∧ hexValue (hexNat n) = n ∧ hexNat n ≠ [] ∧
    (n = 0 → hexNat n = [48]) ∧ (0 < n → (hexNat n).head? ≠ some 48) := by
  have hfuel : n < 16 ^ (n + 1) :=
    lt_of_lt_of_le (Nat.lt_pow_self (by decide) n) (Nat.pow_le_pow_right (by decide) (by omega))
  have hlt := digitsAux_lt 16 (by decide) (n + 1) n
  refine ⟨?_, ?_, ?_, ?_, ?_⟩
  · intro c hc
    obtain ⟨d, hd, rfl⟩ := List.mem_map.mp hc
    exact (hexDigit_val ⟨d, hlt d hd⟩).1
  · unfold hexNat
    rw [hexValue_map _ hlt, digitsAux_value 16 _ _ hfuel]
  · unfold hexNat
    simpa using digitsAux_ne_nil 16 n n
  · intro h0
    subst h0
    decide
  · intro hpos
    have hh := digitsAux_head 16 (by decide) (n + 1) n hfuel hpos
    unfold hexNat
    cases hd : digitsAux 16 (n + 1) n [] with
    | nil => simp
    | cons x xs =>
      rw [hd] at hh
      have hx : x < 16 := hlt x (by rw [hd]; exact List.mem_cons_self _ _)
      simp only [List.map_cons, List.head?_cons, ne_eq, Option.some.injEq]
      intro h48
      have := (hexDigit_val ⟨x, hx⟩).2.2 h48
      simp at hh
      exact hh this

/-! ### Integers on the wire -/

theorem beNat_map_ofNat (ds : List Nat) (h : ∀ d ∈ ds, d < 256) :
    beNat (ds.map (fun d => (Fin.ofNat d : Byte))) = ofDigits 256 ds := by
  unfold beNat ofDigits
  generalize 0 = a
  induction ds generalizing a with
  | nil => rfl
  | cons d ds ih =>
    have hd : d < 256 := h d (List.mem_cons_self _ _)
    have hv : (Fin.ofNat d : Byte).val = d := by
      show d % 256 = d
      exact Nat.mod_eq_of_lt hd
    simp only [List.map_cons, List.foldl_cons]
    rw [hv]
    exact ih (fun x hx => h x (List.mem_cons_of_mem _ hx)) _

/-- An unsigned integer below `2 ^ 64` is read back, and what follows it on
the wire is left. -/
theorem decodeUint_encodeUint (x : Nat) (hx : x < 2 ^ 64) (rest : List Byte) :
    decodeUint (encodeUint x ++ rest) = some (x, rest) := by
  unfold encodeUint
  by_cases h : x ≤ 0x7F
  · have hv : (Fin.ofNat x : Byte).val = x := by
      show x % 256 = x
      exact Nat.mod_eq_of_lt (by omega)
    simp only [h, if_true, List.singleton_append, decodeUint, hv]
  · rw [if_neg h]
    have hlen := digitsAux_length_le 256 8 x
    have hne := digitsAux_ne_nil 256 7 x
    have hpos : 0 < (digitsAux 256 8 x []).length := List.length_pos.mpr hne
    have hval := digitsAux_value 256 8 x (by norm_num; omega)
    have hlt := digitsAux_lt 256 (by decide) 8 x
    generalize hbs : digitsAux 256 8 x [] = bs at hlen hpos hval hlt
    have hv : (Fin.ofNat (256 - bs.length) : Byte).val = 256 - bs.length := by
      show (256 - bs.length) % 256 = 256 - bs.length
      exact Nat.mod_eq_of_lt (by omega)
    have h1 : ¬ (256 - bs.length ≤ 0x7F) := by omega
    have h2 : 256 - (256 - bs.length) = bs.length := by omega
    have h3 : ¬ (bs.length > 8) := by omega
    simp only [List.cons_append, decodeUint, hv, h1, if_false, h2, h3, List.length_append,
      List.length_map]
    have h4 : ¬ (bs.length + rest.length < bs.length) := by omega
    rw [if_neg h4]
    have h5 : (List.map (fun d => (Fin.ofNat d : Byte)) bs).length = bs.length := by simp
    rw [List.take_left' h5, List.drop_left' h5, beNat_map_ofNat bs hlt, hval]

/-- A signed integer in the range of `int64` is read back. -/
theorem decodeInt_encodeInt (i : Int) (h1 : -(2 ^ 63 : Int) ≤ i) (h2 : i < 2 ^ 63)
    (rest : List Byte) :
    decodeInt (encodeInt i ++ rest) = some (i, rest) := by
  unfold encodeInt decodeInt
  by_cases h : i < 0
  · rw [if_pos h, decodeUint_encodeUint _ (by omega)]
    have hodd : ((-i - 1).toNat * 2 + 1) % 2 = 1 := by omega
    simp only [hodd, if_true]
    congr 2
    omega
  · rw [if_neg h, decodeUint_encodeUint _ (by omega)]
    have hev : ¬ ((i.toNat * 2) % 2 = 1) := by omega
    simp only [hev, if_false]
    congr 2
    omega

/-- Reading an unsigned integer consumes at least one byte. -/
theorem decodeUint_length (d rest : List Byte) (x : Nat) (h : decodeUint d = some (x, rest)) :
    rest.length < d.length := by
  cases d with
  | nil => simp [decodeUint] at h
  | cons b t =>
    simp only [decodeUint] at h
    split at h
    · simp only [Option.some.injEq, Prod.mk.injEq] at h
      rw [← h.2]; simp
    · split at h
      · exact absurd h (by simp)
      · split at h
        · exact absurd h (by simp)
        · simp only [Option.some.injEq, Prod.mk.injEq] at h
          rw [← h.2]
          simp only [List.length_drop, List.length_cons]
          omega

/-! ### The struct decoder on what the struct encoder wrote -/

theorem encodeUint_ne_nil (x : Nat) : encodeUint x ≠ [] := by
  unfold encodeUint
  by_cases h : x ≤ 0x7F <;> simp [h]

/-- The closing zero ends the field loop. -/
theorem decodeStruct_terminator (fuel : Nat) (f : Int) (rest : List Byte) (blk : Block) :
    decodeStruct (fuel + 1) f (encStructTerminator ++ rest) blk = blk := by
  have h : decodeUint (encStructTerminator ++ rest) = some (0, rest) :=
    decodeUint_encodeUint 0 (by decide) rest
  have hlen := decodeUint_length _ _ _ h
  rw [decodeStruct, if_neg (by omega), h]
  simp

/-- An integer field that was sent is stored and the loop goes on behind it. -/
theorem decodeStruct_int (k f v : Int) (hk : k = 0 ∨ k = 4) (hf : -1 ≤ f) (hfk : f < k)
    (hv1 : -(2 ^ 63 : Int) ≤ v) (hv2 : v < 2 ^ 63)
    (rest : List Byte) (blk : Block) (fuel : Nat) :
    decodeStruct (fuel + 1) f (encodeUint (k - f).toNat ++ encodeInt v ++ rest) blk =
      decodeStruct fuel k rest
        (if k = 0 then { blk with Timestamp := v } else { blk with Nonce := v }) := by
  have h : decodeUint (encodeUint (k - f).toNat ++ encodeInt v ++ rest) =
      some ((k - f).toNat, encodeInt v ++ rest) := by
    rw [List.append_assoc]
    exact decodeUint_encodeUint _ (by omega) _
  have hlen := decodeUint_length _ _ _ h
  have h2 := decodeInt_encodeInt v hv1 hv2 rest
  have hcast : (((k - f).toNat : Nat) : Int) = k - f := by omega
  have hsum : f + (k - f) = k := by omega
  rw [decodeStruct, if_neg (by omega), h]
  simp only [hcast, hsum]
  rw [if_neg (by omega), if_neg (by omega), if_neg (by omega), if_pos hk, h2]

/-- A byte-slice field that was sent is stored and the loop goes on behind it. -/
theorem decodeStruct_bytes (k f : Int) (hk : k = 1 ∨ k = 2 ∨ k = 3) (hf : -1 ≤ f)
    (hfk : f < k) (v : List Byte) (hv : v.length < 2 ^ 63)
    (rest : List Byte) (blk : Block) (fuel : Nat) :
    decodeStruct (fuel + 1) f
        (encodeUint (k - f).toNat ++ encodeUint v.length ++ v ++ rest) blk =
      decodeStruct fuel k rest
        (if k = 1 then { blk with Data := v }
         else if k = 2 then { blk with PrevBlockHash := v }
         else { blk with Hash := v }) := by
  have h : decodeUint (encodeUint (k - f).toNat ++ encodeUint v.length ++ v ++ rest) =
      some ((k - f).toNat, encodeUint v.length ++ (v ++ rest)) := by
    simp only [List.append_assoc]
    exact decodeUint_encodeUint _ (by omega) _
  have hlen := decodeUint_length _ _ _ h
  have h2 := decodeUint_encodeUint v.length (by omega) (v ++ rest)
  have hcast : (((k - f).toNat : Nat) : Int) = k - f := by omega
  have hsum : f + (k - f) = k := by omega
  rw [decodeStruct, if_neg (by omega), h]
  simp only [hcast, hsum]
  rw [if_neg (by omega), if_neg (by omega), if_neg (by omega), if_neg (by omega), h2]
  simp only [List.length_append]
  rw [if_neg (by omega), List.take_left, List.drop_left]

theorem encodeUint_length (x : Nat) : 0 < (encodeUint x).length ∧ (encodeUint x).length ≤ 9 := by
  unfold encodeUint
  by_cases h : x ≤ 0x7F
  · simp [h]
  · have := digitsAux_length_le 256 8 x
    simp only [h, if_false, List.length_cons, List.length_map]
    omega

theorem encodeInt_length (i : Int) : 0 < (encodeInt i).length ∧ (encodeInt i).length ≤ 9 := by
  unfold encodeInt
  by_cases h : i < 0
  · rw [if_pos h]; exact encodeUint_length _
  · rw [if_neg h]; exact encodeUint_length _

/-- The integer field `k` (0 or 4) as the encoder handles it, sent or omitted:
the decoder ends up with the value in the field, provided the field held zero
before when the value is zero. -/
theorem decodeStruct_encInt (k f v : Int) (hk : k = 0 ∨ k = 4) (hf : -1 ≤ f) (hfk : f < k)
    (hv1 : -(2 ^ 63 : Int) ≤ v) (hv2 : v < 2 ^ 63)
    (rest : List Byte) (blk : Block) (fuel : Nat)
    (hfuel : ((encInt k f v).2 ++ rest).length ≤ fuel)
    (hz : v = 0 →
      (if k = 0 then { blk with Timestamp := v } else { blk with Nonce := v }) = blk) :
    ∃ fuel1, rest.length ≤ fuel1 ∧ -1 ≤ (encInt k f v).1 ∧ (encInt k f v).1 ≤ k ∧
      decodeStruct fuel f ((encInt k f v).2 ++ rest) blk =
        decodeStruct fuel1 (encInt k f v).1 rest
          (if k = 0 then { blk with Timestamp := v } else { blk with Nonce := v }) := by
  by_cases h0 : v = 0
  · have he : encInt k f v = (f, []) := by simp [encInt, h0]
    rw [he] at hfuel ⊢
    refine ⟨fuel, by simpa using hfuel, hf, le_of_lt hfk, ?_⟩
    rw [hz h0]
    rfl
  · have he : encInt k f v = (k, encodeUint (k - f).toNat ++ encodeInt v) := by
      simp [encInt, h0]
    rw [he] at hfuel ⊢
    have h1 := (encodeUint_length (k - f).toNat).1
    simp only [List.length_append] at hfuel
    obtain ⟨fuel0, rfl⟩ : ∃ fuel0, fuel = fuel0 + 1 := ⟨fuel - 1, by omega⟩
    refine ⟨fuel0, by omega, by omega, le_refl _, ?_⟩
    exact decodeStruct_int k f v hk hf hfk hv1 hv2 rest blk fuel0

/-- The byte-slice field `k` (1, 2 or 3) as the encoder handles it. -/
theorem decodeStruct_encUint8Array (k f : Int) (hk : k = 1 ∨ k = 2 ∨ k = 3) (hf : -1 ≤ f)
    (hfk : f < k) (v : List Byte) (hv : v.length < 2 ^ 63)
    (rest : List Byte) (blk : Block) (fuel : Nat)
    (hfuel : ((encUint8Array k f v).2 ++ rest).length ≤ fuel)
    (hz : v = [] →
      (if k = 1 then { blk with Data := v }
       else if k = 2 then { blk with PrevBlockHash := v }
       else { blk with Hash := v }) = blk) :
    ∃ fuel1, rest.length ≤ fuel1 ∧ -1 ≤ (encUint8Array k f v).1 ∧
      (encUint8Array k f v).1 ≤ k ∧
      decodeStruct fuel f ((encUint8Array k f v).2 ++ rest) blk =
        decodeStruct fuel1 (encUint8Array k f v).1 rest
          (if k = 1 then { blk with Data := v }
           else if k = 2 then { blk with PrevBlockHash := v }
           else { blk with Hash := v }) := by
  by_cases h0 : v = []
  · have he : encUint8Array k f v = (f, []) := by simp [encUint8Array, h0]
    rw [he] at hfuel ⊢
    refine ⟨fuel, by simpa using hfuel, hf, le_of_lt hfk, ?_⟩
    rw [hz h0]
    rfl
  · have hpos : v.length > 0 := List.length_pos.mpr h0
    have he : encUint8Array k f v =
        (k, encodeUint (k - f).toNat ++ encodeUint v.length ++ v) := by
      simp [encUint8Array, hpos]
    rw [he] at hfuel ⊢
    have h1 := (encodeUint_length (k - f).toNat).1
    simp only [List.length_append] at hfuel
    obtain ⟨fuel0, rfl⟩ : ∃ fuel0, fuel = fuel0 + 1 := ⟨fuel - 1, by omega⟩
    refine ⟨fuel0, by omega, by omega, le_refl _, ?_⟩
    exact decodeStruct_bytes k f hk hf hfk v hv rest blk fuel0

theorem encInt_length (k f v : Int) : (encInt k f v).2.length ≤ 18 := by
  unfold encInt
  by_cases h : v = 0
  · simp [h]
  · have h1 := (encodeUint_length (k - f).toNat).2
    have h2 := (encodeInt_length v).2
    simp only [ne_eq, h, not_false_eq_true, if_true, List.length_append]
    omega

theorem encUint8Array_length (k f : Int) (v : List Byte) :
    (encUint8Array k f v).2.length ≤ 18 + v.length := by
  unfold encUint8Array
  by_cases h : v.length > 0
  · have h1 := (encodeUint_length (k - f).toNat).2
    have h2 := (encodeUint_length v.length).2
    simp only [h, if_true, List.length_append]
    omega
  · simp [h]

theorem encodeStruct_length (b : Block) :
    (encodeStruct b).length ≤
      91 + (b.Data.length + b.PrevBlockHash.length + b.Hash.length) := by
  unfold encodeStruct
  simp only [List.length_append]
  have h0 := encInt_length 0 (-1) b.Timestamp
  have h1 := encUint8Array_length 1 (encInt 0 (-1) b.Timestamp).1 b.Data
  have h2 := encUint8Array_length 2 (encUint8Array 1 (encInt 0 (-1) b.Timestamp).1 b.Data).1
    b.PrevBlockHash
  have h3 := encUint8Array_length 3
    (encUint8Array 2 (encUint8Array 1 (encInt 0 (-1) b.Timestamp).1 b.Data).1
      b.PrevBlockHash).1 b.Hash
  have h4 := encInt_length 4
    (encUint8Array 3
      (encUint8Array 2 (encUint8Array 1 (encInt 0 (-1) b.Timestamp).1 b.Data).1
        b.PrevBlockHash).1 b.Hash).1 b.Nonce
  have h5 : encStructTerminator.length = 1 := by decide
  omega

/-- The struct decoder, run on the fields of a block, fills a zeroed block
with them. -/
theorem decodeStruct_encodeStruct (b : Block) (hb : b.WF) (rest : List Byte) (fuel : Nat)
    (hfuel : (encodeStruct b ++ rest).length ≤ fuel) :
    decodeStruct fuel (-1) (encodeStruct b ++ rest) ⟨0, [], [], [], 0⟩ = b := by
  obtain ⟨ht1, ht2, hn1, hn2, hlen⟩ := hb
  unfold encodeStruct at hfuel ⊢
  simp only [List.append_assoc] at hfuel ⊢
  obtain ⟨fuel0, hf0, lo0, hi0, e0⟩ := decodeStruct_encInt 0 (-1) b.Timestamp (Or.inl rfl)
    (le_refl _) (by decide) ht1 ht2 _ ⟨0, [], [], [], 0⟩ fuel hfuel (by intro h; simp [h])
  rw [e0]
  simp only [if_true]
  obtain ⟨fuel1, hf1, lo1, hi1, e1⟩ := decodeStruct_encUint8Array 1 _ (Or.inl rfl) lo0
    (by omega) b.Data (by omega) _ ⟨b.Timestamp, [], [], [], 0⟩ fuel0 hf0
    (by intro h; simp [h])
  rw [e1]
  simp only [if_true]
  obtain ⟨fuel2, hf2, lo2, hi2, e2⟩ := decodeStruct_encUint8Array 2 _ (Or.inr (Or.inl rfl)) lo1
    (by omega) b.PrevBlockHash (by omega) _ ⟨b.Timestamp, b.Data, [], [], 0⟩ fuel1 hf1
    (by intro h; simp [h])
  rw [e2]
  obtain ⟨fuel3, hf3, lo3, hi3, e3⟩ := decodeStruct_encUint8Array 3 _ (Or.inr (Or.inr rfl)) lo2
    (by omega) b.Hash (by omega) _ ⟨b.Timestamp, b.Data, b.PrevBlockHash, [], 0⟩ fuel2
    hf2 (by intro h; simp [h])
  simp only [show ¬ ((2 : Int) = 1) by decide, if_false, if_true] at e3 ⊢
  rw [e3]
  obtain ⟨fuel4, hf4, lo4, hi4, e4⟩ := decodeStruct_encInt 4 _ b.Nonce (Or.inr rfl) lo3
    (by omega) hn1 hn2 _ ⟨b.Timestamp, b.Data, b.PrevBlockHash, b.Hash, 0⟩ fuel3
    hf3 (by intro h; simp [h])
  simp only [show ¬ ((3 : Int) = 1) by decide, show ¬ ((3 : Int) = 2) by decide, if_false] at e4 ⊢
  rw [e4]
  have hpos : 0 < fuel4 := by
    have : 0 < encStructTerminator.length := by decide
    simp only [List.length_append] at hf4
    omega
  obtain ⟨fuel5, rfl⟩ : ∃ fuel5, fuel4 = fuel5 + 1 := ⟨fuel4 - 1, by omega⟩
  rw [decodeStruct_terminator]
  simp

theorem recvMessage_writeMessage (body rest : List Byte) (h : body.length < 2 ^ 64) :
    recvMessage (writeMessage body ++ rest) = some (body, rest) := by
  unfold recvMessage writeMessage
  rw [List.append_assoc, decodeUint_encodeUint _ h]
  simp

/-- Decoding the serialization of a block into a zeroed block gives the block. -/
theorem DeserializeBlock_Serialize (b : Block) (hb : b.WF) :
    DeserializeBlock b.Serialize ⟨0, [], [], [], 0⟩ = b := by
  have hlen := encodeStruct_length b
  have hsum := hb.2.2.2.2
  have hid : (encodeInt blockTypeId).length = 2 := by decide
  have h1 : recvMessage b.Serialize =
      some (blockTypeDef, writeMessage (encodeInt blockTypeId ++ encodeStruct b)) :=
    recvMessage_writeMessage _ _ (by decide)
  have h2 : recvMessage (writeMessage (encodeInt blockTypeId ++ encodeStruct b)) =
      some (encodeInt blockTypeId ++ encodeStruct b, []) := by
    have := recvMessage_writeMessage (encodeInt blockTypeId ++ encodeStruct b) []
      (by simp only [List.length_append]; omega)
    simpa using this
  have h3 : decodeInt (encodeInt blockTypeId ++ encodeStruct b) =
      some (blockTypeId, encodeStruct b) :=
    decodeInt_encodeInt _ (by decide) (by decide) _
  have h4 := decodeStruct_encodeStruct b hb [] (encodeStruct b).length (by simp)
  simp only [List.append_nil] at h4
  unfold DeserializeBlock
  rw [h1]
  simp only [ne_eq, not_true_eq_false, if_false]
  rw [h2]
  simp only [h3]
  simp only [ne_eq, not_true_eq_false, if_false]
  exact h4

/-! ### The mining loop -/

/-- What the loop of `Run` returns when started at `nonce` with enough fuel:
it stops at the first nonce from `nonce` on whose hash is below the target,
or at `maxNonce` with the hash of the last attempt. -/
theorem runLoop_spec (H : HashFn) (pow : ProofOfWork) :
    ∀ (fuel : Nat) (nonce : Int) (hash : List Byte),
      nonce ≤ maxNonce → (maxNonce - nonce).toNat ≤ fuel →
      nonce ≤ (pow.runLoop H fuel nonce hash).1 ∧
      (pow.runLoop H fuel nonce hash).1 ≤ maxNonce ∧
      (∀ m, nonce ≤ m → m < (pow.runLoop H fuel nonce hash).1 →
        ¬ beNat (H.sum256 (pow.prepareData m)) < pow.target) ∧
      ((pow.runLoop H fuel nonce hash).1 < maxNonce →
        beNat (pow.runLoop H fuel nonce hash).2 < pow.target ∧
        (pow.runLoop H fuel nonce hash).2 =
          H.sum256 (pow.prepareData (pow.runLoop H fuel nonce hash).1)) ∧
      ((pow.runLoop H fuel nonce hash).1 = maxNonce →
        (pow.runLoop H fuel nonce hash).2 =
          if nonce < maxNonce then H.sum256 (pow.prepareData (maxNonce - 1)) else hash) := by
  intro fuel
  induction fuel with
  | zero =>
    intro nonce hash hle hfuel
    have hEq : nonce = maxNonce := by omega
    subst hEq
    simp only [ProofOfWork.runLoop, lt_self_iff_false, if_false, le_refl, true_and,
      false_implies, implies_true, and_true]
    intro m h1 h2
    omega
  | succ fuel ih =>
    intro nonce hash hle hfuel
    by_cases hlt : nonce < maxNonce
    · by_cases hv : beNat (H.sum256 (pow.prepareData nonce)) < pow.target
      · have hr : pow.runLoop H (fuel + 1) nonce hash =
            (nonce, H.sum256 (pow.prepareData nonce)) := by
          simp [ProofOfWork.runLoop, hlt, hv]
        rw [hr]
        refine ⟨le_refl _, hle, ?_, ?_, ?_⟩
        · intro m h1 h2; exact absurd h2 (not_lt.mpr h1)
        · intro _; exact ⟨hv, rfl⟩
        · intro h; exact absurd h (ne_of_lt hlt)
      · have hr : pow.runLoop H (fuel + 1) nonce hash =
            pow.runLoop H fuel (nonce + 1) (H.sum256 (pow.prepareData nonce)) := by
          simp [ProofOfWork.runLoop, hlt, hv]
        rw [hr]
        have h1 : nonce + 1 ≤ maxNonce := by omega
        have h2 : (maxNonce - (nonce + 1)).toNat ≤ fuel := by omega
        obtain ⟨a, b, c, d, e⟩ := ih (nonce + 1) (H.sum256 (pow.prepareData nonce)) h1 h2
        refine ⟨by omega, b, ?_, d, ?_⟩
        · intro m hm1 hm2
          by_cases hmn : m = nonce
          · subst hmn; exact hv
          · exact c m (by omega) hm2
        · intro hmax
          rw [e hmax, if_pos hlt]
          by_cases hlt2 : nonce + 1 < maxNonce
          · rw [if_pos hlt2]
          · rw [if_neg hlt2]
            have : nonce = maxNonce - 1 := by omega
            rw [this]
    · have hr : pow.runLoop H (fuel + 1) nonce hash = (nonce, hash) := by
        simp [ProofOfWork.runLoop, hlt]
      have hEq : nonce = maxNonce := by omega
      rw [hr]
      refine ⟨le_refl _, hle, ?_, ?_, ?_⟩
      · intro m h1 h2; exact absurd h2 (not_lt.mpr h1)
      · intro h; exact absurd h hlt
      · intro _; rw [if_neg hlt]

/-- The loop of `Run` started at zero with the fuel `Run` gives it. -/
theorem Run_spec (H : HashFn) (pow : ProofOfWork) :
    0 ≤ (pow.Run H).1 ∧ (pow.Run H).1 ≤ maxNonce ∧
    (∀ m, 0 ≤ m → m < (pow.Run H).1 →
      ¬ beNat (H.sum256 (pow.prepareData m)) < pow.target) ∧
    ((pow.Run H).1 < maxNonce →
      beNat (pow.Run H).2 < pow.target ∧
      (pow.Run H).2 = H.sum256 (pow.prepareData (pow.Run H).1)) ∧
    ((pow.Run H).1 = maxNonce →
      (pow.Run H).2 = H.sum256 (pow.prepareData (maxNonce - 1))) := by
  have h := runLoop_spec H pow maxNonce.toNat 0 (List.replicate 32 0)
    (by decide) (by simp)
  obtain ⟨a, b, c, d, e⟩ := h
  refine ⟨a, b, c, d, ?_⟩
  intro hmax
  have := e hmax
  rw [if_pos (by decide)] at this
  exact this

/-- A nonce below the bound whose hash meets the target stops the search at
or before it. -/
theorem Run_found (H : HashFn) (pow : ProofOfWork) (k : Int) (hk0 : 0 ≤ k)
    (hv : beNat (H.sum256 (pow.prepareData k)) < pow.target) :
    (pow.Run H).1 ≤ k := by
  obtain ⟨_, _, c, _, _⟩ := Run_spec H pow
  by_contra hcon
  exact c k hk0 (not_le.mp hcon) hv

/-- When no nonce below the bound meets the target, `Run` returns the bound
and the hash of the last attempt. -/
theorem Run_exhausted (H : HashFn) (pow : ProofOfWork)
    (hno : ∀ m, 0 ≤ m → m < maxNonce → ¬ beNat (H.sum256 (pow.prepareData m)) < pow.target) :
    pow.Run H = (maxNonce, H.sum256 (pow.prepareData (maxNonce - 1))) := by
  obtain ⟨a, b, _, d, e⟩ := Run_spec H pow
  have hmax : (pow.Run H).1 = maxNonce := by
    by_contra hne
    have hlt : (pow.Run H).1 < maxNonce := lt_of_le_of_ne b hne
    have hv := (d hlt).1
    rw [(d hlt).2] at hv
    exact hno _ a hlt hv
  exact Prod.ext hmax (e hmax)

theorem beNat_append_singleton (l : List Byte) (c : Byte) :
    beNat (l ++ [c]) = beNat l * 256 + c.val := by
  simp [beNat, List.foldl_append]

theorem target_eq (b : Block) : (NewProofOfWork b).target = 2 ^ 252 := by
  simp [NewProofOfWork, targetBits, Nat.shiftLeft_eq]

/-- The fields that `NewBlock` returns. -/
theorem NewBlock_eq (H : HashFn) (now : Int) (data prev : List Byte) :
    NewBlock H now data prev =
      ⟨now, data, prev, ((NewProofOfWork ⟨now, data, prev, [], 0⟩).Run H).2,
        ((NewProofOfWork ⟨now, data, prev, [], 0⟩).Run H).1⟩ := rfl

/-- The loop of `Run` on the block under construction, as `NewBlock` calls it. -/
theorem NewBlock_Nonce (H : HashFn) (now : Int) (data prev : List Byte) :
    (NewBlock H now data prev).Nonce =
      ((NewProofOfWork ⟨now, data, prev, [], 0⟩).Run H).1 := rfl

theorem NewBlock_Hash (H : HashFn) (now : Int) (data prev : List Byte) :
    (NewBlock H now data prev).Hash =
      ((NewProofOfWork ⟨now, data, prev, [], 0⟩).Run H).2 := rfl

/-- The preimage does not depend on the fields `Hash` and `Nonce`. -/
theorem prepareData_NewBlock (H : HashFn) (now : Int) (data prev : List Byte) (n : Int) :
    (NewProofOfWork (NewBlock H now data prev)).prepareData n =
      (NewProofOfWork ⟨now, data, prev, [], 0⟩).prepareData n := rfl

theorem Validate_iff (H : HashFn) (b : Block) :
    (NewProofOfWork b).Validate H = true ↔
      beNat (H.sum256 ((NewProofOfWork b).prepareData b.Nonce)) < (NewProofOfWork b).target := by
  simp [ProofOfWork.Validate, NewProofOfWork]

/-! ### Store and chain -/

theorem Get_Put_same (b : Bucket) (k v : List Byte) : (b.Put k v).Get k = v := by
  simp [Bucket.Get, Bucket.Put]

theorem Get_Put_other (b : Bucket) (k v k1 : List Byte) (h : k1 ≠ k) :
    (b.Put k v).Get k1 = b.Get k1 := by
  simp [Bucket.Get, Bucket.Put, h]

/-- The hash stored by `NewBlock` is a digest, hence 32 bytes long. -/
theorem NewBlock_Hash_length (H : HashFn) (now : Int) (data prev : List Byte) :
    (NewBlock H now data prev).Hash.length = 32 := by
  obtain ⟨_, b, _, d, e⟩ := Run_spec H (NewProofOfWork ⟨now, data, prev, [], 0⟩)
  rw [NewBlock_Hash]
  by_cases h : ((NewProofOfWork ⟨now, data, prev, [], 0⟩).Run H).1 < maxNonce
  · rw [(d h).2]; exact H.len _
  · rw [e (le_antisymm b (not_lt.mp h))]; exact H.len _

theorem NewBlock_Hash_ne_tipKey (H : HashFn) (now : Int) (data prev : List Byte) :
    (NewBlock H now data prev).Hash ≠ tipKey := by
  intro h
  have := NewBlock_Hash_length H now data prev
  rw [h] at this
  exact absurd this (by decide)

theorem NewBlock_WF (H : HashFn) (now : Int) (data prev : List Byte)
    (hin : ValidInput now data) (hprev : prev.length ≤ 32) :
    (NewBlock H now data prev).WF := by
  obtain ⟨a, b, _, _, _⟩ := Run_spec H (NewProofOfWork ⟨now, data, prev, [], 0⟩)
  have hlen := NewBlock_Hash_length H now data prev
  obtain ⟨h1, h2, h3⟩ := hin
  simp only [FitsStore, maxValueSize] at h3
  have hmax : maxNonce < 2 ^ 63 := by decide
  refine ⟨h1, h2, ?_, ?_, ?_⟩
  · rw [NewBlock_Nonce]; omega
  · rw [NewBlock_Nonce]; omega
  · rw [hlen]
    show data.length + prev.length + 32 < 2 ^ 63
    omega

/-- Writing under a key that is not the hash of a block on the walk leaves
the walk as it was. -/
theorem Linked_Put (db : Bucket) (k v : List Byte) :
    ∀ (blocks : List Block) (cur : List Byte), Linked db cur blocks →
      (∀ b ∈ blocks, b.Hash ≠ k) → Linked (db.Put k v) cur blocks := by
  intro blocks
  induction blocks with
  | nil => intro cur h _; exact h
  | cons b rest ih =>
    intro cur h hk
    obtain ⟨h1, h2, h3, h4, h5⟩ := h
    refine ⟨h1, h2, ?_, h4, ih _ h5 (fun x hx => hk x (List.mem_cons_of_mem _ hx))⟩
    rw [Get_Put_other _ _ _ _ (hk b (List.mem_cons_self _ _))]
    exact h3

theorem Linked_cur_length (db : Bucket) (cur : List Byte) (blocks : List Block)
    (h : Linked db cur blocks) : cur.length ≤ 32 := by
  cases blocks with
  | nil =>
    have : cur = [] := h
    simp [this]
  | cons b rest =>
    obtain ⟨h1, h2, _⟩ := h
    rw [h1, h2]

theorem Linked_mem (db : Bucket) :
    ∀ (blocks : List Block) (cur : List Byte), Linked db cur blocks →
      ∀ b ∈ blocks, b.Hash.length = 32 ∧ db.Get b.Hash = b.Serialize ∧ b.WF := by
  intro blocks
  induction blocks with
  | nil => intro cur _ b hb; simp at hb
  | cons x rest ih =>
    intro cur h b hb
    obtain ⟨_, h2, h3, h4, h5⟩ := h
    rcases List.mem_cons.mp hb with rfl | hmem
    · exact ⟨h2, h3, h4⟩
    · exact ih _ h5 b hmem

/-- One `AddBlock` puts the new block in front of the walk. -/
theorem AddBlock_Linked (H : HashFn) (now : Int) (data : List Byte) (bc : Blockchain)
    (blocks : List Block) (hl : Linked bc.db (bc.db.Get tipKey) blocks)
    (hin : ValidInput now data)
    (hnew : ∀ b ∈ blocks, b.Hash ≠ (NewBlock H now data (bc.db.Get tipKey)).Hash) :
    Linked (bc.AddBlock H now data).db ((bc.AddBlock H now data).db.Get tipKey)
      (NewBlock H now data (bc.db.Get tipKey) :: blocks) ∧
    (bc.AddBlock H now data).tip = (bc.AddBlock H now data).db.Get tipKey ∧
    (bc.AddBlock H now data).db.Get tipKey = (NewBlock H now data (bc.db.Get tipKey)).Hash := by
  have hne := NewBlock_Hash_ne_tipKey H now data (bc.db.Get tipKey)
  have hlen := NewBlock_Hash_length H now data (bc.db.Get tipKey)
  have hwf := NewBlock_WF H now data (bc.db.Get tipKey) hin (Linked_cur_length _ _ _ hl)
  have htip : (bc.AddBlock H now data).db.Get tipKey =
      (NewBlock H now data (bc.db.Get tipKey)).Hash := by
    simp only [Blockchain.AddBlock]
    exact Get_Put_same _ _ _
  refine ⟨?_, ?_, htip⟩
  · rw [htip]
    refine ⟨rfl, hlen, ?_, hwf, ?_⟩
    · simp only [Blockchain.AddBlock]
      rw [Get_Put_other _ _ _ _ hne]
      exact Get_Put_same _ _ _
    · simp only [Blockchain.AddBlock]
      apply Linked_Put
      · apply Linked_Put
        · exact hl
        · exact hnew
      · intro b hb hk
        have : b.Hash.length = 32 := (Linked_mem _ _ _ hl b hb).1
        rw [hk] at this
        exact absurd this (by decide)
  · rw [htip]; rfl

theorem minedFrom_length (H : HashFn) :
    ∀ (adds : List (Int × List Byte)) (prev : List Byte),
      (minedFrom H prev adds).length = adds.length := by
  intro adds
  induction adds with
  | nil => intro prev; rfl
  | cons a rest ih => intro prev; simp [minedFrom, ih]

theorem minedFrom_Data (H : HashFn) :
    ∀ (adds : List (Int × List Byte)) (prev : List Byte),
      (minedFrom H prev adds).map Block.Data = adds.map Prod.snd := by
  intro adds
  induction adds with
  | nil => intro prev; rfl
  | cons a rest ih =>
    intro prev
    simp only [minedFrom, List.map_cons, ih]
    rfl

/-- A run of `AddBlock` calls puts the blocks it mines in front of the walk,
newest first, and keeps the cached tip equal to the tip entry. -/
theorem foldl_AddBlock_Linked (H : HashFn) :
    ∀ (adds : List (Int × List Byte)) (bc : Blockchain) (blocks : List Block),
      Linked bc.db (bc.db.Get tipKey) blocks → bc.tip = bc.db.Get tipKey →
      (∀ a ∈ adds, ValidInput a.1 a.2) →
      ((minedFrom H (bc.db.Get tipKey) adds).map Block.Hash ++ blocks.map Block.Hash).Nodup →
      Linked (adds.foldl (fun bc a => bc.AddBlock H a.1 a.2) bc).db
        ((adds.foldl (fun bc a => bc.AddBlock H a.1 a.2) bc).db.Get tipKey)
        ((minedFrom H (bc.db.Get tipKey) adds).reverse ++ blocks) ∧
      (adds.foldl (fun bc a => bc.AddBlock H a.1 a.2) bc).tip =
        (adds.foldl (fun bc a => bc.AddBlock H a.1 a.2) bc).db.Get tipKey := by
  intro adds
  induction adds with
  | nil =>
    intro bc blocks hl ht _ _
    exact ⟨by simpa [minedFrom] using hl, ht⟩
  | cons a rest ih =>
    intro bc blocks hl _ hin hnd
    simp only [minedFrom, List.map_cons, List.cons_append, List.nodup_cons,
      List.mem_append, List.mem_map, not_or] at hnd
    obtain ⟨⟨hn1, hn2⟩, hnd2⟩ := hnd
    have hnew : ∀ b ∈ blocks, b.Hash ≠ (NewBlock H a.1 a.2 (bc.db.Get tipKey)).Hash :=
      fun b hb hEq => hn2 ⟨b, hb, hEq⟩
    obtain ⟨hl1, ht1, hg1⟩ := AddBlock_Linked H a.1 a.2 bc blocks hl
      (hin a (List.mem_cons_self _ _)) hnew
    have hnd3 : ((minedFrom H ((bc.AddBlock H a.1 a.2).db.Get tipKey) rest).map Block.Hash ++
        (NewBlock H a.1 a.2 (bc.db.Get tipKey) :: blocks).map Block.Hash).Nodup := by
      rw [hg1, List.map_cons]
      refine (List.Perm.nodup_iff List.perm_middle).mpr ?_
      refine List.nodup_cons.mpr ⟨?_, hnd2⟩
      simp only [List.mem_append, List.mem_map, not_or]
      exact ⟨hn1, hn2⟩
    have hrec := ih (bc.AddBlock H a.1 a.2) (NewBlock H a.1 a.2 (bc.db.Get tipKey) :: blocks)
      hl1 ht1 (fun x hx => hin x (List.mem_cons_of_mem _ hx)) hnd3
    rw [hg1] at hrec
    simpa [minedFrom, List.reverse_cons, List.append_assoc] using hrec

/-- The store after `NewBlockchain` on an empty database and a run of
`AddBlock` calls, when the mined hashes are pairwise distinct. -/
theorem buildChain_Linked (H : HashFn) (now0 : Int) (adds : List (Int × List Byte))
    (h0 : -(2 ^ 63 : Int) ≤ now0 ∧ now0 < 2 ^ 63)
    (hin : ∀ a ∈ adds, ValidInput a.1 a.2)
    (hnd : ((minedBlocks H now0 adds).map Block.Hash).Nodup) :
    Linked (buildChain H now0 adds).db (buildChain H now0 adds).tip
      (minedBlocks H now0 adds).reverse ∧
    (buildChain H now0 adds).tip = (buildChain H now0 adds).db.Get tipKey := by
  have hne : (NewGenesisBlock H now0).Hash ≠ tipKey :=
    NewBlock_Hash_ne_tipKey H now0 genesisData []
  have hlen : (NewGenesisBlock H now0).Hash.length = 32 :=
    NewBlock_Hash_length H now0 genesisData []
  have hwf : (NewGenesisBlock H now0).WF :=
    NewBlock_WF H now0 genesisData [] ⟨h0.1, h0.2, by decide⟩ (by decide)
  have hget : (NewBlockchain H now0 none).db.Get tipKey = (NewGenesisBlock H now0).Hash := by
    simp only [NewBlockchain]
    exact Get_Put_same _ _ _
  have hl0 : Linked (NewBlockchain H now0 none).db ((NewBlockchain H now0 none).db.Get tipKey)
      [NewGenesisBlock H now0] := by
    rw [hget]
    refine ⟨rfl, hlen, ?_, hwf, rfl⟩
    simp only [NewBlockchain]
    rw [Get_Put_other _ _ _ _ hne]
    exact Get_Put_same _ _ _
  have hnd2 : ((minedFrom H ((NewBlockchain H now0 none).db.Get tipKey) adds).map Block.Hash ++
      [NewGenesisBlock H now0].map Block.Hash).Nodup := by
    rw [hget]
    refine (List.Perm.nodup_iff (List.perm_append_singleton _ _)).mpr ?_
    exact hnd
  obtain ⟨hl, ht⟩ := foldl_AddBlock_Linked H adds (NewBlockchain H now0 none)
    [NewGenesisBlock H now0] hl0 (by rw [hget]; rfl) hin hnd2
  rw [hget] at hl
  refine ⟨?_, ht⟩
  unfold buildChain
  rw [ht]
  simpa [minedBlocks, List.reverse_cons] using hl

/-- Every mined block is a result of `NewBlock`. -/
theorem minedFrom_mem (H : HashFn) :
    ∀ (adds : List (Int × List Byte)) (prev : List Byte), ∀ b ∈ minedFrom H prev adds,
      ∃ now data p, b = NewBlock H now data p := by
  intro adds
  induction adds with
  | nil => intro prev b hb; simp [minedFrom] at hb
  | cons a rest ih =>
    intro prev b hb
    simp only [minedFrom, List.mem_cons] at hb
    rcases hb with rfl | hb
    · exact ⟨a.1, a.2, prev, rfl⟩
    · exact ih _ b hb

theorem minedBlocks_mem (H : HashFn) (now0 : Int) (adds : List (Int × List Byte)) :
    ∀ b ∈ minedBlocks H now0 adds, ∃ now data p, b = NewBlock H now data p := by
  intro b hb
  simp only [minedBlocks, List.mem_cons] at hb
  rcases hb with rfl | hb
  · exact ⟨now0, genesisData, [], rfl⟩
  · exact minedFrom_mem H adds _ b hb

/-- A block returned by `NewBlock` after a successful search stores the hash
of the preimage at its nonce. -/
theorem NewBlock_Hash_eq (H : HashFn) (now : Int) (data prev : List Byte)
    (hfound : ∃ k : Int, 0 ≤ k ∧ k < maxNonce ∧
      beNat (H.sum256 ((NewProofOfWork (NewBlock H now data prev)).prepareData k)) <
        (NewProofOfWork (NewBlock H now data prev)).target) :
    (NewBlock H now data prev).Hash =
      H.sum256 ((NewProofOfWork (NewBlock H now data prev)).prepareData
        (NewBlock H now data prev).Nonce) := by
  obtain ⟨k, hk0, hk, hv⟩ := hfound
  rw [prepareData_NewBlock, target_eq, ← target_eq ⟨now, data, prev, [], 0⟩] at hv
  obtain ⟨_, _, _, d, _⟩ := Run_spec H (NewProofOfWork ⟨now, data, prev, [], 0⟩)
  have hlt : ((NewProofOfWork ⟨now, data, prev, [], 0⟩).Run H).1 < maxNonce :=
    lt_of_le_of_lt (Run_found H _ k hk0 hv) hk
  rw [prepareData_NewBlock, NewBlock_Hash, NewBlock_Nonce]
  exact (d hlt).2

/-! ### The iterator -/

theorem Next_empty (db : Bucket) (blk : Block) :
    (⟨[], db⟩ : BlockchainIterator).Next blk = (false, ⟨[], db⟩, ⟨0, [], [], [], 0⟩) := rfl

/-- On a walk, `Next` yields the block stored under the cursor, whatever the
out block held, and moves the cursor to its predecessor. -/
theorem Next_Linked (db : Bucket) (cur : List Byte) (b : Block) (rest : List Block)
    (h : Linked db cur (b :: rest)) (blk : Block) :
    (⟨cur, db⟩ : BlockchainIterator).Next blk = (true, ⟨b.PrevBlockHash, db⟩, b) := by
  obtain ⟨h1, h2, h3, h4, _⟩ := h
  have hlen : ¬ (cur.length = 0) := by rw [h1, h2]; decide
  simp only [BlockchainIterator.Next, hlen, if_false]
  rw [h1, h3]
  simp only [Block.Clear]
  rw [DeserializeBlock_Serialize b h4]

theorem drain_Linked (db : Bucket) :
    ∀ (blocks : List Block) (cur : List Byte) (blk : Block) (fuel : Nat),
      Linked db cur blocks → blocks.length < fuel →
      BlockchainIterator.drain fuel ⟨cur, db⟩ blk = blocks := by
  intro blocks
  induction blocks with
  | nil =>
    intro cur blk fuel h hf
    have hc : cur = [] := h
    subst hc
    obtain ⟨f, rfl⟩ : ∃ f, fuel = f + 1 := ⟨fuel - 1, by omega⟩
    simp [BlockchainIterator.drain, Next_empty]
  | cons b rest ih =>
    intro cur blk fuel h hf
    simp only [List.length_cons] at hf
    obtain ⟨f, rfl⟩ : ∃ f, fuel = f + 1 := ⟨fuel - 1, by omega⟩
    simp only [BlockchainIterator.drain, Next_Linked db cur b rest h blk, if_true]
    rw [ih b.PrevBlockHash b f h.2.2.2.2 (by omega)]

theorem results_exhausted (db : Bucket) :
    ∀ (k : Nat) (blk : Block),
      BlockchainIterator.results k ⟨[], db⟩ blk = List.replicate k false := by
  intro k
  induction k with
  | zero => intro blk; rfl
  | succ k ih =>
    intro blk
    simp only [BlockchainIterator.results, Next_empty, List.replicate_succ]
    rw [ih]

theorem results_Linked (db : Bucket) (k : Nat) :
    ∀ (blocks : List Block) (cur : List Byte) (blk : Block),
      Linked db cur blocks →
      BlockchainIterator.results (blocks.length + k) ⟨cur, db⟩ blk =
        List.replicate blocks.length true ++ List.replicate k false := by
  intro blocks
  induction blocks with
  | nil =>
    intro cur blk h
    have hc : cur = [] := h
    subst hc
    simpa using results_exhausted db k blk
  | cons b rest ih =>
    intro cur blk h
    have hlen : (b :: rest).length + k = (rest.length + k) + 1 := by
      simp only [List.length_cons]; omega
    rw [hlen]
    simp only [BlockchainIterator.results, Next_Linked db cur b rest h blk, List.length_cons,
      List.replicate_succ, List.cons_append]
    rw [ih b.PrevBlockHash b h.2.2.2.2]

/-- On a walk every block points to the next one and the last one to nothing. -/
theorem Linked_chain (db : Bucket) :
    ∀ (blocks : List Block) (cur : List Byte), Linked db cur blocks →
      List.Chain' (fun x y => x.PrevBlockHash = y.Hash) blocks ∧
      ∀ b, blocks.getLast? = some b → b.PrevBlockHash = [] := by
  intro blocks
  induction blocks with
  | nil => intro cur _; simp
  | cons b rest ih =>
    intro cur h
    obtain ⟨_, _, _, _, h5⟩ := h
    obtain ⟨ih1, ih2⟩ := ih _ h5
    cases rest with
    | nil =>
      have hp : b.PrevBlockHash = [] := h5
      refine ⟨List.chain'_singleton _, ?_⟩
      intro x hx
      simp at hx
      rw [← hx]; exact hp
    | cons c rest2 =>
      refine ⟨List.Chain'.cons h5.1 ih1, ?_⟩
      intro x hx
      rw [List.getLast?_cons_cons] at hx
      exact ih2 x hx

/-! ### Claims about mining and validation -/

/-- C1: whenever some nonce in `[0, maxNonce)` gives a hash below the
target, the block returned by `NewBlock` passes `Validate`. -/
theorem C1_mined_block_validates (H : HashFn) (now : Int) (data prev : List Byte)
    (hfound : ∃ k : Int, 0 ≤ k ∧ k < maxNonce ∧
      beNat (H.sum256 ((NewProofOfWork ⟨now, data, prev, [], 0⟩).prepareData k)) <
        (NewProofOfWork ⟨now, data, prev, [], 0⟩).target) :
    (NewProofOfWork (NewBlock H now data prev)).Validate H = true := by
  obtain ⟨k, hk0, hk, hv⟩ := hfound
  obtain ⟨_, _, _, d, _⟩ := Run_spec H (NewProofOfWork ⟨now, data, prev, [], 0⟩)
  have hle := Run_found H _ k hk0 hv
  have hlt : ((NewProofOfWork ⟨now, data, prev, [], 0⟩).Run H).1 < maxNonce :=
    lt_of_le_of_lt hle hk
  obtain ⟨hbelow, heq⟩ := d hlt
  rw [heq] at hbelow
  rw [Validate_iff, prepareData_NewBlock, NewBlock_Nonce, target_eq]
  rw [target_eq] at hbelow
  exact hbelow

theorem C1_mined_block_validates_witness :
    (NewProofOfWork (NewBlock sha256 0 genesisData [])).Validate sha256 = true :=
  C1_mined_block_validates sha256 0 genesisData [] ⟨16, by decide, by decide, by decide⟩

/-- C4: if some nonce in `[0, maxNonce)` gives a hash whose big-endian value is
below the target, `Run` returns `(n, h)` with `n` the least such nonce and
`h` the hash of the preimage at `n`; every smaller nonce has a hash value at
or above the target. -/
theorem C4_Run_returns_least (H : HashFn) (b : Block)
    (hfound : ∃ k : Int, 0 ≤ k ∧ k < maxNonce ∧
      beNat (H.sum256 ((NewProofOfWork b).prepareData k)) < (NewProofOfWork b).target) :
    0 ≤ ((NewProofOfWork b).Run H).1 ∧
    ((NewProofOfWork b).Run H).1 < maxNonce ∧
    beNat (H.sum256 ((NewProofOfWork b).prepareData ((NewProofOfWork b).Run H).1)) <
      (NewProofOfWork b).target ∧
    ((NewProofOfWork b).Run H).2 =
      H.sum256 ((NewProofOfWork b).prepareData ((NewProofOfWork b).Run H).1) ∧
    (∀ m : Int, 0 ≤ m → m < ((NewProofOfWork b).Run H).1 →
      (NewProofOfWork b).target ≤ beNat (H.sum256 ((NewProofOfWork b).prepareData m))) ∧
    (∀ k : Int, 0 ≤ k →
      beNat (H.sum256 ((NewProofOfWork b).prepareData k)) < (NewProofOfWork b).target →
      ((NewProofOfWork b).Run H).1 ≤ k) := by
  obtain ⟨k, hk0, hk, hv⟩ := hfound
  obtain ⟨a, _, c, d, _⟩ := Run_spec H (NewProofOfWork b)
  have hlt : ((NewProofOfWork b).Run H).1 < maxNonce :=
    lt_of_le_of_lt (Run_found H _ k hk0 hv) hk
  obtain ⟨hbelow, heq⟩ := d hlt
  refine ⟨a, hlt, ?_, heq, ?_, ?_⟩
  · rw [← heq]; exact hbelow
  · intro m hm0 hm
    exact not_lt.mp (c m hm0 hm)
  · intro k2 hk20 hv2
    exact Run_found H _ k2 hk20 hv2

theorem C4_Run_returns_least_witness :
    ((NewProofOfWork ⟨5, genesisData, [], [], 0⟩).Run hashToy).2 =
      hashToy.sum256 ((NewProofOfWork ⟨5, genesisData, [], [], 0⟩).prepareData
        ((NewProofOfWork ⟨5, genesisData, [], [], 0⟩).Run hashToy).1) :=
  (C4_Run_returns_least hashToy ⟨5, genesisData, [], [], 0⟩
    ⟨26, by decide, by decide, by decide⟩).2.2.2.1

/-- C6: `Validate` returns true exactly when the big-endian value of the hash
of the preimage at the stored nonce is below `2 ^ (256 - targetBits) = 2 ^ 252`,
and its result does not depend on the stored `Hash` field. -/
theorem C6_Validate_iff (H : HashFn) (b : Block) :
    ((NewProofOfWork b).Validate H = true ↔
      beNat (H.sum256 (b.PrevBlockHash ++ b.Data ++ IntTohex b.Timestamp ++
        IntTohex (targetBits : Int) ++ IntTohex b.Nonce)) < 2 ^ (256 - targetBits)) ∧
    2 ^ (256 - targetBits) = 2 ^ 252 ∧
    (∀ h : List Byte,
      (NewProofOfWork { b with Hash := h }).Validate H = (NewProofOfWork b).Validate H) := by
  refine ⟨?_, by simp [targetBits], fun h => rfl⟩
  rw [Validate_iff, target_eq]
  simp [ProofOfWork.prepareData, NewProofOfWork, targetBits]

/-- C5: for every block and every nonce at least 0, `prepareData(nonce)` is
`PrevBlockHash ++ Data ++ hex(Timestamp) ++ "4" ++ hex(nonce)` with nothing in
between, where the hex text of a number at least 0 consists of lowercase
hexadecimal digits that denote it, has no leading zero, and is `"0"` for zero,
and the hex text of a negative timestamp is `-` followed by that of its
magnitude. -/
theorem C5_prepareData_layout (b : Block) (nonce : Int) (hn : 0 ≤ nonce) :
    (NewProofOfWork b).prepareData nonce =
      b.PrevBlockHash ++ b.Data ++ IntTohex b.Timestamp ++ [52] ++ IntTohex nonce ∧
    IntTohex (targetBits : Int) = [52] ∧
    ((∀ c ∈ IntTohex nonce, isLowerHex c) ∧ hexValue (IntTohex nonce) = nonce.toNat ∧
      IntTohex nonce ≠ [] ∧ (nonce = 0 → IntTohex nonce = [48]) ∧
      (0 < nonce → (IntTohex nonce).head? ≠ some 48)) ∧
    (0 ≤ b.Timestamp →
      (∀ c ∈ IntTohex b.Timestamp, isLowerHex c) ∧
      hexValue (IntTohex b.Timestamp) = b.Timestamp.toNat ∧
      (b.Timestamp = 0 → IntTohex b.Timestamp = [48]) ∧
      (0 < b.Timestamp → (IntTohex b.Timestamp).head? ≠ some 48)) ∧
    (b.Timestamp < 0 → IntTohex b.Timestamp = 45 :: IntTohex (-b.Timestamp)) := by
  have h4 : IntTohex (targetBits : Int) = [52] := by decide
  have hnonneg : ∀ i : Int, 0 ≤ i → IntTohex i = hexNat i.toNat := by
    intro i hi
    unfold IntTohex
    rw [if_neg (not_lt.mpr hi)]
    congr 1
    omega
  refine ⟨?_, h4, ?_, ?_, ?_⟩
  · simp [ProofOfWork.prepareData, NewProofOfWork, h4]
  · rw [hnonneg nonce hn]
    obtain ⟨h1, h2, h3, h5, h6⟩ := hexNat_spec nonce.toNat
    exact ⟨h1, h2, h3, fun h0 => h5 (by omega), fun hp => h6 (by omega)⟩
  · intro ht
    rw [hnonneg _ ht]
    obtain ⟨h1, h2, _, h5, h6⟩ := hexNat_spec b.Timestamp.toNat
    exact ⟨h1, h2, fun h0 => h5 (by omega), fun hp => h6 (by omega)⟩
  · intro ht
    have hneg : ¬ (-b.Timestamp < 0) := by omega
    simp only [IntTohex, ht, if_true, hneg, if_false, Int.natAbs_neg]

theorem C5_prepareData_layout_witness :
    (NewProofOfWork ⟨1700000000, genesisData, [1, 2], [], 0⟩).prepareData 255 =
      [1, 2] ++ genesisData ++ IntTohex 1700000000 ++ [52] ++ IntTohex 255 :=
  (C5_prepareData_layout ⟨1700000000, genesisData, [1, 2], [], 0⟩ 255 (by decide)).1

/-! ### Claims about serialization, the chain and the iterator -/

/-- C7: for every block `b` whose fields are in the ranges of their Go types
(empty `Data` or `PrevBlockHash` included), `DeserializeBlock` applied to
`b.Serialize()` and a freshly zeroed block leaves a block equal to `b` in
every field. -/
theorem C7_serialize_roundtrip (b : Block) (hb : b.WF) (blk : Block) :
    DeserializeBlock b.Serialize blk.Clear = b ∧
    (DeserializeBlock b.Serialize blk.Clear).Timestamp = b.Timestamp ∧
    (DeserializeBlock b.Serialize blk.Clear).Data = b.Data ∧
    (DeserializeBlock b.Serialize blk.Clear).PrevBlockHash = b.PrevBlockHash ∧
    (DeserializeBlock b.Serialize blk.Clear).Hash = b.Hash ∧
    (DeserializeBlock b.Serialize blk.Clear).Nonce = b.Nonce := by
  have h : DeserializeBlock b.Serialize blk.Clear = b := DeserializeBlock_Serialize b hb
  rw [h]
  exact ⟨rfl, rfl, rfl, rfl, rfl, rfl⟩

theorem C7_serialize_roundtrip_witness :
    Block.WF ⟨1700000000, genesisData, [], [0, 171, 3], 26⟩ ∧
    DeserializeBlock (Block.Serialize ⟨1700000000, genesisData, [], [0, 171, 3], 26⟩)
      (Block.Clear ⟨7, [1], [2], [3], 4⟩) = ⟨1700000000, genesisData, [], [0, 171, 3], 26⟩ :=
  ⟨by decide,
    (C7_serialize_roundtrip ⟨1700000000, genesisData, [], [0, 171, 3], 26⟩ (by decide)
      ⟨7, [1], [2], [3], 4⟩).1⟩

/-- C10: after `NewBlockchain` the cached tip equals the entry under the tip
key `l`, and on an empty database both are the hash of the genesis block, which
is stored under that hash; after every `AddBlock(data)` the cached tip and the
entry under `l` both equal the hash of the block just admitted, which is
stored under that hash, carries `data`, and has as `PrevBlockHash` the tip
entry that was in the store before the call. -/
theorem C10_tip_consistent (H : HashFn) (now : Int) :
    (∀ db : Option Bucket,
      (NewBlockchain H now db).tip = (NewBlockchain H now db).db.Get tipKey) ∧
    ((NewBlockchain H now none).tip = (NewGenesisBlock H now).Hash ∧
      (NewBlockchain H now none).db.Get (NewGenesisBlock H now).Hash =
        (NewGenesisBlock H now).Serialize) ∧
    (∀ (bc : Blockchain) (data : List Byte),
      (bc.AddBlock H now data).tip = (NewBlock H now data (bc.db.Get tipKey)).Hash ∧
      (bc.AddBlock H now data).db.Get tipKey = (NewBlock H now data (bc.db.Get tipKey)).Hash ∧
      (bc.AddBlock H now data).db.Get (NewBlock H now data (bc.db.Get tipKey)).Hash =
        (NewBlock H now data (bc.db.Get tipKey)).Serialize ∧
      (NewBlock H now data (bc.db.Get tipKey)).PrevBlockHash = bc.db.Get tipKey ∧
      (NewBlock H now data (bc.db.Get tipKey)).Data = data) := by
  refine ⟨?_, ⟨rfl, ?_⟩, ?_⟩
  · intro db
    cases db with
    | none =>
      simp only [NewBlockchain]
      exact (Get_Put_same _ _ _).symm
    | some b => rfl
  · have hne : (NewGenesisBlock H now).Hash ≠ tipKey :=
      NewBlock_Hash_ne_tipKey H now genesisData []
    simp only [NewBlockchain]
    rw [Get_Put_other _ _ _ _ hne]
    exact Get_Put_same _ _ _
  · intro bc data
    refine ⟨rfl, ?_, ?_, rfl, rfl⟩
    · simp only [Blockchain.AddBlock]
      exact Get_Put_same _ _ _
    · simp only [Blockchain.AddBlock]
      rw [Get_Put_other _ _ _ _ (NewBlock_Hash_ne_tipKey H now data _)]
      exact Get_Put_same _ _ _

/-! ### The store invariant -/

theorem Put_apply_same (b : Bucket) (k v : List Byte) : (b.Put k v) k = some v := by
  simp [Bucket.Put]

theorem Put_apply_other (b : Bucket) (k v k1 : List Byte) (h : k1 ≠ k) :
    (b.Put k v) k1 = b k1 := by
  simp [Bucket.Put, h]

/-- Writing a block record under its hash and then the tip entry gives a
bucket that satisfies the store invariant, if every key before was the tip key
or the hash of the block recorded under it. -/
theorem StoreInv_Put (db : Bucket) (nb : Block) (hlen : nb.Hash.length = 32)
    (hkeys : ∀ k : List Byte, db k ≠ none →
      k = tipKey ∨ (k.length = 32 ∧ ∃ b : Block, b.Hash = k ∧ db k = some b.Serialize)) :
    StoreInv ((db.Put nb.Hash nb.Serialize).Put tipKey nb.Hash) := by
  have hne : nb.Hash ≠ tipKey := by
    intro h
    rw [h] at hlen
    exact absurd hlen (by decide)
  constructor
  · refine ⟨nb, Get_Put_same _ _ _, Put_apply_same _ _ _, hlen, ?_⟩
    rw [Put_apply_other _ _ _ _ hne]
    exact Put_apply_same _ _ _
  · intro k hk
    by_cases h1 : k = tipKey
    · exact Or.inl h1
    · right
      rw [Put_apply_other _ _ _ _ h1] at hk ⊢
      by_cases h2 : k = nb.Hash
      · subst h2
        exact ⟨hlen, nb, rfl, Put_apply_same _ _ _⟩
      · rw [Put_apply_other _ _ _ _ h2] at hk ⊢
        rcases hkeys k hk with h3 | h3
        · exact absurd h3 h1
        · exact h3

theorem StoreInv_NewBlockchain (H : HashFn) (now : Int) :
    StoreInv (NewBlockchain H now none).db := by
  have hlen : (NewGenesisBlock H now).Hash.length = 32 :=
    NewBlock_Hash_length H now genesisData []
  exact StoreInv_Put Bucket.empty (NewGenesisBlock H now) hlen
    (fun k hk => absurd rfl hk)

theorem StoreInv_AddBlock (H : HashFn) (now : Int) (data : List Byte) (bc : Blockchain)
    (h : StoreInv bc.db) : StoreInv (bc.AddBlock H now data).db :=
  StoreInv_Put bc.db (NewBlock H now data (bc.db.Get tipKey))
    (NewBlock_Hash_length H now data _) h.2

theorem StoreInv_foldl (H : HashFn) :
    ∀ (adds : List (Int × List Byte)) (bc : Blockchain), StoreInv bc.db →
      StoreInv (adds.foldl (fun bc a => bc.AddBlock H a.1 a.2) bc).db := by
  intro adds
  induction adds with
  | nil => intro bc h; exact h
  | cons a rest ih =>
    intro bc h
    exact ih _ (StoreInv_AddBlock H a.1 a.2 bc h)

theorem StoreInv_buildChain (H : HashFn) (now0 : Int) (adds : List (Int × List Byte)) :
    StoreInv (buildChain H now0 adds).db :=
  StoreInv_foldl H adds _ (StoreInv_NewBlockchain H now0)

/-- The cached tip after a run of `AddBlock` calls is the tip entry. -/
theorem tip_foldl (H : HashFn) :
    ∀ (adds : List (Int × List Byte)) (bc : Blockchain), bc.tip = bc.db.Get tipKey →
      (adds.foldl (fun bc a => bc.AddBlock H a.1 a.2) bc).tip =
        (adds.foldl (fun bc a => bc.AddBlock H a.1 a.2) bc).db.Get tipKey := by
  intro adds
  induction adds with
  | nil => intro bc h; exact h
  | cons a rest ih =>
    intro bc _
    refine ih _ ?_
    simp only [Blockchain.AddBlock]
    exact (Get_Put_same _ _ _).symm

theorem tip_buildChain (H : HashFn) (now0 : Int) (adds : List (Int × List Byte)) :
    (buildChain H now0 adds).tip = (buildChain H now0 adds).db.Get tipKey := by
  refine tip_foldl H adds _ ?_
  simp only [NewBlockchain]
  exact (Get_Put_same _ _ _).symm

/-! ### More on the iterator -/

/-- `Next` returns false exactly when the cursor is empty. -/
theorem Next_false_iff (iter : BlockchainIterator) (blk : Block) :
    (iter.Next blk).1 = false ↔ iter.currentHash = [] := by
  unfold BlockchainIterator.Next
  by_cases h : iter.currentHash.length = 0
  · simp only [h, if_true, true_iff]
    exact List.length_eq_zero.mp h
  · simp only [h, if_false, Bool.true_eq_false, false_iff]
    exact fun hc => h (by rw [hc]; rfl)

/-- With an empty cursor `Next` leaves the iterator as it is. -/
theorem Next_of_empty (iter : BlockchainIterator) (blk : Block) (h : iter.currentHash = []) :
    iter.Next blk = (false, iter, ⟨0, [], [], [], 0⟩) := by
  unfold BlockchainIterator.Next
  simp [h, Block.Clear]

/-- With a non-empty cursor `Next` returns true, whatever the store holds. -/
theorem Next_of_nonempty (iter : BlockchainIterator) (blk : Block)
    (h : iter.currentHash ≠ []) :
    iter.Next blk =
      (true,
        ⟨(DeserializeBlock (iter.db.Get iter.currentHash) ⟨0, [], [], [], 0⟩).PrevBlockHash,
          iter.db⟩,
        DeserializeBlock (iter.db.Get iter.currentHash) ⟨0, [], [], [], 0⟩) := by
  have hlen : ¬ (iter.currentHash.length = 0) := fun hc => h (List.length_eq_zero.mp hc)
  unfold BlockchainIterator.Next
  simp [hlen, Block.Clear]

theorem Next_db (iter : BlockchainIterator) (blk : Block) : (iter.Next blk).2.1.db = iter.db := by
  by_cases h : iter.currentHash = []
  · rw [Next_of_empty iter blk h]
  · rw [Next_of_nonempty iter blk h]

theorem after_db :
    ∀ (k : Nat) (iter : BlockchainIterator) (blk : Block), (iter.after k blk).1.db = iter.db := by
  intro k
  induction k with
  | zero => intro iter blk; rfl
  | succ k ih =>
    intro iter blk
    simp only [BlockchainIterator.after]
    rw [ih, Next_db]

theorem resultsOver_exhausted :
    ∀ (dbs : List Bucket) (iter : BlockchainIterator) (blk : Block), iter.currentHash = [] →
      iter.resultsOver dbs blk = List.replicate dbs.length false := by
  intro dbs
  induction dbs with
  | nil => intro iter blk _; rfl
  | cons db rest ih =>
    intro iter blk h
    have hn := Next_of_empty ({ iter with db := db } : BlockchainIterator) blk h
    simp only [BlockchainIterator.resultsOver, hn, List.length_cons, List.replicate_succ]
    rw [ih ⟨iter.currentHash, db⟩ _ h]

theorem results_of_empty :
    ∀ (k : Nat) (iter : BlockchainIterator) (blk : Block), iter.currentHash = [] →
      iter.results k blk = List.replicate k false := by
  intro k
  induction k with
  | zero => intro iter blk _; rfl
  | succ k ih =>
    intro iter blk h
    simp only [BlockchainIterator.results, Next_of_empty iter blk h, List.replicate_succ]
    rw [ih _ _ h]

theorem buildChain_snoc (H : HashFn) (now0 : Int) (adds : List (Int × List Byte))
    (a : Int × List Byte) :
    buildChain H now0 (adds ++ [a]) = (buildChain H now0 adds).AddBlock H a.1 a.2 := by
  simp [buildChain, List.foldl_append]

/-! ### The target as a bound on the first byte -/

theorem beNat_foldl (t : List Byte) :
    ∀ a : Nat, t.foldl (fun acc b => acc * 256 + b.val) a = a * 256 ^ t.length + beNat t := by
  induction t with
  | nil => intro a; simp [beNat]
  | cons b t ih =>
    intro a
    simp only [List.foldl_cons, List.length_cons, beNat]
    rw [ih (a * 256 + b.val), ih (0 * 256 + b.val)]
    ring

theorem beNat_cons (b : Byte) (t : List Byte) :
    beNat (b :: t) = b.val * 256 ^ t.length + beNat t := by
  show (b :: t).foldl (fun acc b => acc * 256 + b.val) 0 = _
  simp only [List.foldl_cons]
  rw [beNat_foldl t (0 * 256 + b.val)]
  ring

theorem beNat_lt (t : List Byte) : beNat t < 256 ^ t.length := by
  induction t with
  | nil => simp [beNat]
  | cons b t ih =>
    rw [beNat_cons, List.length_cons, pow_succ]
    have hb : b.val < 256 := b.isLt
    have : b.val * 256 ^ t.length + 256 ^ t.length ≤ 256 ^ t.length * 256 := by
      have := Nat.mul_le_mul_right (256 ^ t.length) (Nat.succ_le_of_lt hb)
      rw [Nat.succ_mul] at this
      rw [Nat.mul_comm (256 ^ t.length) 256]
      exact this
    omega

/-! ### Records within the limits of the store -/

theorem Serialize_length_le (b : Block) :
    b.Serialize.length ≤
      182 + (b.Data.length + b.PrevBlockHash.length + b.Hash.length) := by
  have h1 : (writeMessage blockTypeDef).length = 80 := by decide
  have h2 := encodeStruct_length b
  have h3 : (encodeInt blockTypeId).length = 2 := by decide
  have h4 := (encodeUint_length (encodeInt blockTypeId ++ encodeStruct b).length).2
  simp only [Block.Serialize, List.length_append, h1]
  simp only [writeMessage, List.length_append, h3] at h4 ⊢
  omega

/-- The record of a block mined from a payload that fits the store is a value
that the store accepts. -/
theorem NewBlock_Serialize_fits (H : HashFn) (now : Int) (data prev : List Byte)
    (hd : FitsStore data) (hprev : prev.length ≤ 32) :
    (NewBlock H now data prev).Serialize.length ≤ maxValueSize := by
  have h1 := Serialize_length_le (NewBlock H now data prev)
  have h2 := NewBlock_Hash_length H now data prev
  have h3 : (NewBlock H now data prev).Data.length = data.length := rfl
  have h4 : (NewBlock H now data prev).PrevBlockHash.length = prev.length := rfl
  unfold FitsStore at hd
  omega

theorem StoreFits_Put (db : Bucket) (k v : List Byte) (h : StoreFits db)
    (hk : 0 < k.length ∧ k.length ≤ maxKeySize) (hv : v.length ≤ maxValueSize) :
    StoreFits (db.Put k v) := by
  intro k1 v1 h1
  by_cases hkk : k1 = k
  · subst hkk
    rw [Put_apply_same] at h1
    have : v = v1 := by simpa using h1
    subst this
    exact ⟨hk.1, hk.2, hv⟩
  · rw [Put_apply_other _ _ _ _ hkk] at h1
    exact h k1 v1 h1

theorem StoreFits_block_and_tip (db : Bucket) (nb : Block) (h : StoreFits db)
    (hlen : nb.Hash.length = 32) (hfit : nb.Serialize.length ≤ maxValueSize) :
    StoreFits ((db.Put nb.Hash nb.Serialize).Put tipKey nb.Hash) := by
  apply StoreFits_Put
  · apply StoreFits_Put _ _ _ h
    · rw [hlen]; decide
    · exact hfit
  · decide
  · rw [hlen]; decide

theorem StoreFits_NewBlockchain (H : HashFn) (now : Int) :
    StoreFits (NewBlockchain H now none).db := by
  have hlen : (NewGenesisBlock H now).Hash.length = 32 :=
    NewBlock_Hash_length H now genesisData []
  have hfit : (NewGenesisBlock H now).Serialize.length ≤ maxValueSize :=
    NewBlock_Serialize_fits H now genesisData [] (by decide) (by decide)
  exact StoreFits_block_and_tip Bucket.empty _ (fun k v h => by simp [Bucket.empty] at h)
    hlen hfit

theorem tip_length_of_StoreInv (db : Bucket) (h : StoreInv db) :
    (db.Get tipKey).length = 32 := by
  obtain ⟨⟨b, h1, _, h3, _⟩, _⟩ := h
  rw [h1]; exact h3

theorem StoreFits_AddBlock (H : HashFn) (now : Int) (data : List Byte) (bc : Blockchain)
    (hinv : StoreInv bc.db) (h : StoreFits bc.db) (hd : FitsStore data) :
    StoreFits (bc.AddBlock H now data).db :=
  StoreFits_block_and_tip bc.db (NewBlock H now data (bc.db.Get tipKey)) h
    (NewBlock_Hash_length H now data _)
    (NewBlock_Serialize_fits H now data _ hd (le_of_eq (tip_length_of_StoreInv _ hinv)))

theorem StoreFits_foldl (H : HashFn) :
    ∀ (adds : List (Int × List Byte)) (bc : Blockchain), StoreInv bc.db → StoreFits bc.db →
      (∀ a ∈ adds, FitsStore a.2) →
      StoreFits (adds.foldl (fun bc a => bc.AddBlock H a.1 a.2) bc).db := by
  intro adds
  induction adds with
  | nil => intro bc _ h _; exact h
  | cons a rest ih =>
    intro bc hinv h hin
    exact ih _ (StoreInv_AddBlock H a.1 a.2 bc hinv)
      (StoreFits_AddBlock H a.1 a.2 bc hinv h (hin a (List.mem_cons_self _ _)))
      (fun x hx => hin x (List.mem_cons_of_mem _ hx))

theorem StoreFits_buildChain (H : HashFn) (now0 : Int) (adds : List (Int × List Byte))
    (hin : ∀ a ∈ adds, FitsStore a.2) : StoreFits (buildChain H now0 adds).db :=
  StoreFits_foldl H adds _ (StoreInv_NewBlockchain H now0) (StoreFits_NewBlockchain H now0) hin

/-- The records of the blocks that a run of `AddBlock` calls writes are values
that the store accepts. -/
theorem minedFrom_fits (H : HashFn) :
    ∀ (adds : List (Int × List Byte)) (prev : List Byte), prev.length ≤ 32 →
      (∀ a ∈ adds, FitsStore a.2) →
      ∀ b ∈ minedFrom H prev adds, b.Hash.length = 32 ∧ b.Serialize.length ≤ maxValueSize := by
  intro adds
  induction adds with
  | nil => intro prev _ _ b hb; simp [minedFrom] at hb
  | cons a rest ih =>
    intro prev hprev hin b hb
    simp only [minedFrom, List.mem_cons] at hb
    rcases hb with rfl | hb
    · exact ⟨NewBlock_Hash_length H a.1 a.2 prev,
        NewBlock_Serialize_fits H a.1 a.2 prev (hin a (List.mem_cons_self _ _)) hprev⟩
    · exact ih _ (le_of_eq (NewBlock_Hash_length H a.1 a.2 prev))
        (fun x hx => hin x (List.mem_cons_of_mem _ hx)) b hb

theorem minedBlocks_fits (H : HashFn) (now0 : Int) (adds : List (Int × List Byte))
    (hin : ∀ a ∈ adds, FitsStore a.2) :
    ∀ b ∈ minedBlocks H now0 adds,
      b.Hash.length = 32 ∧ b.Serialize.length ≤ maxValueSize := by
  intro b hb
  simp only [minedBlocks, List.mem_cons] at hb
  rcases hb with rfl | hb
  · exact ⟨NewBlock_Hash_length H now0 genesisData [],
      NewBlock_Serialize_fits H now0 genesisData [] (by decide) (by decide)⟩
  · exact minedFrom_fits H adds _ (le_of_eq (NewBlock_Hash_length H now0 genesisData []))
      hin b hb

/-! ### Blocks met by the iterator, whatever the hashes are -/

theorem Put_ne_none (db : Bucket) (k v k1 : List Byte) (h : db k1 ≠ none) :
    (db.Put k v) k1 ≠ none := by
  by_cases hk : k1 = k
  · subst hk; rw [Put_apply_same]; simp
  · rw [Put_apply_other _ _ _ _ hk]; exact h

theorem StoreMined_key_length (H : HashFn) (db : Bucket) (h : StoreMined H db)
    (k : List Byte) (hk : k ≠ tipKey) (hp : db k ≠ none) : k.length = 32 := by
  obtain ⟨now, data, prev, _, h2, _, _⟩ := h.2 k hk hp
  rw [← h2]
  exact NewBlock_Hash_length H now data prev

/-- Writing the record of a newly mined block whose predecessor is the tip
entry, and then the tip entry, keeps `StoreMined`. -/
theorem StoreMined_AddBlock (H : HashFn) (now : Int) (data : List Byte) (bc : Blockchain)
    (h : StoreMined H bc.db) (hin : ValidInput now data) :
    StoreMined H (bc.AddBlock H now data).db := by
  obtain ⟨⟨ht1, ht2⟩, hkeys⟩ := h
  have hne := NewBlock_Hash_ne_tipKey H now data (bc.db.Get tipKey)
  have hplen : (bc.db.Get tipKey).length = 32 :=
    StoreMined_key_length H bc.db ⟨⟨ht1, ht2⟩, hkeys⟩ _ ht1 ht2
  have hwf := NewBlock_WF H now data (bc.db.Get tipKey) hin (le_of_eq hplen)
  have hget : (bc.AddBlock H now data).db.Get tipKey =
      (NewBlock H now data (bc.db.Get tipKey)).Hash := by
    simp only [Blockchain.AddBlock]
    exact Get_Put_same _ _ _
  have hrec : (bc.AddBlock H now data).db (NewBlock H now data (bc.db.Get tipKey)).Hash =
      some (NewBlock H now data (bc.db.Get tipKey)).Serialize := by
    simp only [Blockchain.AddBlock]
    rw [Put_apply_other _ _ _ _ hne]
    exact Put_apply_same _ _ _
  have hmono : ∀ k1 : List Byte, bc.db k1 ≠ none → (bc.AddBlock H now data).db k1 ≠ none := by
    intro k1 hk1
    simp only [Blockchain.AddBlock]
    exact Put_ne_none _ _ _ _ (Put_ne_none _ _ _ _ hk1)
  refine ⟨⟨?_, ?_⟩, ?_⟩
  · rw [hget]; exact hne
  · rw [hget, hrec]; simp
  · intro k hk hp
    by_cases hkn : k = (NewBlock H now data (bc.db.Get tipKey)).Hash
    · subst hkn
      exact ⟨now, data, bc.db.Get tipKey, hrec, rfl, hwf, Or.inr ⟨ht1, hmono _ ht2⟩⟩
    · have hsame : (bc.AddBlock H now data).db k = bc.db k := by
        simp only [Blockchain.AddBlock]
        rw [Put_apply_other _ _ _ _ hk, Put_apply_other _ _ _ _ hkn]
      rw [hsame] at hp
      obtain ⟨n1, d1, p1, e1, e2, e3, e4⟩ := hkeys k hk hp
      refine ⟨n1, d1, p1, by rw [hsame]; exact e1, e2, e3, ?_⟩
      rcases e4 with e4 | ⟨e4, e5⟩
      · exact Or.inl e4
      · exact Or.inr ⟨e4, hmono _ e5⟩

theorem StoreMined_NewBlockchain (H : HashFn) (now0 : Int)
    (h0 : -(2 ^ 63 : Int) ≤ now0 ∧ now0 < 2 ^ 63) :
    StoreMined H (NewBlockchain H now0 none).db := by
  have hne : (NewGenesisBlock H now0).Hash ≠ tipKey :=
    NewBlock_Hash_ne_tipKey H now0 genesisData []
  have hwf : (NewGenesisBlock H now0).WF :=
    NewBlock_WF H now0 genesisData [] ⟨h0.1, h0.2, by decide⟩ (by decide)
  have hget : (NewBlockchain H now0 none).db.Get tipKey = (NewGenesisBlock H now0).Hash := by
    simp only [NewBlockchain]
    exact Get_Put_same _ _ _
  have hrec : (NewBlockchain H now0 none).db (NewGenesisBlock H now0).Hash =
      some (NewGenesisBlock H now0).Serialize := by
    simp only [NewBlockchain]
    rw [Put_apply_other _ _ _ _ hne]
    exact Put_apply_same _ _ _
  refine ⟨⟨?_, ?_⟩, ?_⟩
  · rw [hget]; exact hne
  · rw [hget, hrec]; simp
  · intro k hk hp
    by_cases hkn : k = (NewGenesisBlock H now0).Hash
    · subst hkn
      exact ⟨now0, genesisData, [], hrec, rfl, hwf, Or.inl rfl⟩
    · exfalso
      apply hp
      simp only [NewBlockchain]
      rw [Put_apply_other _ _ _ _ hk, Put_apply_other _ _ _ _ hkn]
      rfl

theorem StoreMined_foldl (H : HashFn) :
    ∀ (adds : List (Int × List Byte)) (bc : Blockchain), StoreMined H bc.db →
      (∀ a ∈ adds, ValidInput a.1 a.2) →
      StoreMined H (adds.foldl (fun bc a => bc.AddBlock H a.1 a.2) bc).db := by
  intro adds
  induction adds with
  | nil => intro bc h _; exact h
  | cons a rest ih =>
    intro bc h hin
    exact ih _ (StoreMined_AddBlock H a.1 a.2 bc h (hin a (List.mem_cons_self _ _)))
      (fun x hx => hin x (List.mem_cons_of_mem _ hx))

theorem StoreMined_buildChain (H : HashFn) (now0 : Int) (adds : List (Int × List Byte))
    (h0 : -(2 ^ 63 : Int) ≤ now0 ∧ now0 < 2 ^ 63)
    (hin : ∀ a ∈ adds, ValidInput a.1 a.2) :
    StoreMined H (buildChain H now0 adds).db :=
  StoreMined_foldl H adds _ (StoreMined_NewBlockchain H now0 h0) hin

/-- Every block that the loop over an iterator yields, from a cursor that is
empty or a key of the bucket, is a block returned by `NewBlock`. -/
theorem drain_mined (H : HashFn) (db : Bucket) (h : StoreMined H db) :
    ∀ (fuel : Nat) (cur : List Byte) (blk : Block),
      (cur = [] ∨ (cur ≠ tipKey ∧ db cur ≠ none)) →
      ∀ b ∈ BlockchainIterator.drain fuel ⟨cur, db⟩ blk,
        ∃ now data prev, b = NewBlock H now data prev := by
  intro fuel
  induction fuel with
  | zero => intro cur blk _ b hb; simp [BlockchainIterator.drain] at hb
  | succ fuel ih =>
    intro cur blk hcur b hb
    rcases hcur with hc | ⟨hc1, hc2⟩
    · subst hc
      simp [BlockchainIterator.drain, Next_empty] at hb
    · obtain ⟨now, data, prev, e1, e2, e3, e4⟩ := h.2 cur hc1 hc2
      have hlen : cur.length = 32 := StoreMined_key_length H db h cur hc1 hc2
      have hne : cur ≠ [] := by
        intro hnil
        rw [hnil] at hlen
        exact absurd hlen (by decide)
      have hg : db.Get cur = (NewBlock H now data prev).Serialize := by
        simp [Bucket.Get, e1]
      have hnext : (⟨cur, db⟩ : BlockchainIterator).Next blk =
          (true, ⟨prev, db⟩, NewBlock H now data prev) := by
        rw [Next_of_nonempty ⟨cur, db⟩ blk hne]
        show (true, (⟨(DeserializeBlock (db.Get cur) ⟨0, [], [], [], 0⟩).PrevBlockHash, db⟩ :
          BlockchainIterator), DeserializeBlock (db.Get cur) ⟨0, [], [], [], 0⟩) = _
        rw [hg, DeserializeBlock_Serialize _ e3]
        rfl
      simp only [BlockchainIterator.drain, hnext, if_true, List.mem_cons] at hb
      rcases hb with rfl | hb
      · exact ⟨now, data, prev, rfl⟩
      · exact ih prev _ e4 b hb

/-! ### Claims about the store, reopening, the cursor and the preimage -/

/-- C12 fails on the code: on a store whose tip entry names a hash without a
record, and on one whose record under that hash cannot be decoded, the first
`Next` of the iterator returns true and yields the zeroed out block; only the
call after it returns false. -/
theorem C12_missing_record_yields_block :
    ((NewBlockchain hashToy 0 (some danglingStore)).Iterator.currentHash ≠ [] ∧
      danglingStore (NewBlockchain hashToy 0 (some danglingStore)).Iterator.currentHash = none ∧
      ((NewBlockchain hashToy 0 (some danglingStore)).Iterator.Next ⟨7, [1], [2], [3], 4⟩).1 =
        true ∧
      ((NewBlockchain hashToy 0 (some danglingStore)).Iterator.Next ⟨7, [1], [2], [3], 4⟩).2.2 =
        ⟨0, [], [], [], 0⟩ ∧
      (NewBlockchain hashToy 0 (some danglingStore)).Iterator.results 3 ⟨7, [1], [2], [3], 4⟩ =
        [true, false, false]) ∧
    (garbledStore (NewBlockchain hashToy 0 (some garbledStore)).Iterator.currentHash =
        some [1, 2, 3] ∧
      ((NewBlockchain hashToy 0 (some garbledStore)).Iterator.Next ⟨7, [1], [2], [3], 4⟩).1 =
        true ∧
      ((NewBlockchain hashToy 0 (some garbledStore)).Iterator.Next ⟨7, [1], [2], [3], 4⟩).2.2 =
        ⟨0, [], [], [], 0⟩) := by
  decide

/-- C13: with an empty cursor `Next` returns false and leaves the cursor empty;
with a non-empty cursor under which the store holds the serialization of a
block `b` (fields in the ranges of their Go types), `Next` returns true, the
out block equals `b` whatever it held before, and the cursor becomes
`b.PrevBlockHash`. -/
theorem C13_Next_contract (iter : BlockchainIterator) (blk : Block) :
    (iter.currentHash = [] →
      (iter.Next blk).1 = false ∧ (iter.Next blk).2.1.currentHash = []) ∧
    (∀ b : Block, iter.currentHash ≠ [] → iter.db iter.currentHash = some b.Serialize → b.WF →
      (iter.Next blk).1 = true ∧ (iter.Next blk).2.2 = b ∧
      (iter.Next blk).2.2.Timestamp = b.Timestamp ∧ (iter.Next blk).2.2.Data = b.Data ∧
      (iter.Next blk).2.2.PrevBlockHash = b.PrevBlockHash ∧ (iter.Next blk).2.2.Hash = b.Hash ∧
      (iter.Next blk).2.2.Nonce = b.Nonce ∧
      (iter.Next blk).2.1.currentHash = b.PrevBlockHash) := by
  constructor
  · intro h
    rw [Next_of_empty iter blk h]
    exact ⟨rfl, h⟩
  · intro b hne hget hwf
    have hg : iter.db.Get iter.currentHash = b.Serialize := by
      simp [Bucket.Get, hget]
    rw [Next_of_nonempty iter blk hne, hg, DeserializeBlock_Serialize b hwf]
    exact ⟨rfl, rfl, rfl, rfl, rfl, rfl, rfl, rfl⟩

theorem C13_Next_contract_witness :
    ((⟨[9], Bucket.empty.Put [9] (Block.Serialize ⟨1700000000, genesisData, [5], [9], 26⟩)⟩ :
        BlockchainIterator).Next ⟨7, [1], [2], [3], 4⟩).2.2 =
      ⟨1700000000, genesisData, [5], [9], 26⟩ ∧
    ((⟨[], Bucket.empty⟩ : BlockchainIterator).Next ⟨7, [1], [2], [3], 4⟩).1 = false :=
  ⟨((C13_Next_contract
      ⟨[9], Bucket.empty.Put [9] (Block.Serialize ⟨1700000000, genesisData, [5], [9], 26⟩)⟩
      ⟨7, [1], [2], [3], 4⟩).2 ⟨1700000000, genesisData, [5], [9], 26⟩
      (by decide) (by decide) (by decide)).2.1,
    ((C13_Next_contract ⟨[], Bucket.empty⟩ ⟨7, [1], [2], [3], 4⟩).1 rfl).1⟩

/-- C14: on a store produced by `NewBlockchain` and one or more `AddBlock`
calls, `NewBlockchain` returns a chain whose cached tip is the hash of the
block added last and whose store is the store it was given; the result does
not depend on the hash function or the clock, so no genesis block is mined. -/
theorem C14_reopen (H : HashFn) (now0 : Int) (adds : List (Int × List Byte))
    (a : Int × List Byte) (H2 : HashFn) (now1 : Int) :
    (NewBlockchain H2 now1 (some (buildChain H now0 (adds ++ [a])).db)).tip =
      (NewBlock H a.1 a.2 ((buildChain H now0 adds).db.Get tipKey)).Hash ∧
    (NewBlockchain H2 now1 (some (buildChain H now0 (adds ++ [a])).db)).tip =
      (buildChain H now0 (adds ++ [a])).tip ∧
    (NewBlockchain H2 now1 (some (buildChain H now0 (adds ++ [a])).db)).db =
      (buildChain H now0 (adds ++ [a])).db ∧
    (∀ (H3 : HashFn) (now3 : Int),
      (NewBlockchain H3 now3 (some (buildChain H now0 (adds ++ [a])).db)).tip =
        (NewBlockchain H2 now1 (some (buildChain H now0 (adds ++ [a])).db)).tip ∧
      (NewBlockchain H3 now3 (some (buildChain H now0 (adds ++ [a])).db)).db =
        (NewBlockchain H2 now1 (some (buildChain H now0 (adds ++ [a])).db)).db) := by
  have htip := tip_buildChain H now0 (adds ++ [a])
  refine ⟨?_, ?_, rfl, fun _ _ => ⟨rfl, rfl⟩⟩
  · show (buildChain H now0 (adds ++ [a])).db.Get tipKey = _
    rw [buildChain_snoc]
    simp only [Blockchain.AddBlock]
    exact Get_Put_same _ _ _
  · exact htip.symm

/-- C15: once `Next` has returned false, the cursor is empty and every later
call of `Next` on the iterator returns false, whatever the store holds at the
time of each call; a fresh `Iterator()` starts at the tip again. -/
theorem C15_exhausted_stays_exhausted (iter : BlockchainIterator) (blk : Block)
    (h : (iter.Next blk).1 = false) :
    (iter.Next blk).2.1.currentHash = [] ∧
    (∀ (dbs : List Bucket) (blk1 : Block),
      (iter.Next blk).2.1.resultsOver dbs blk1 = List.replicate dbs.length false) ∧
    (∀ (k : Nat) (blk1 : Block),
      (iter.Next blk).2.1.results k blk1 = List.replicate k false) ∧
    (∀ bc : Blockchain, bc.Iterator.currentHash = bc.tip) := by
  have he : iter.currentHash = [] := (Next_false_iff iter blk).mp h
  have hn : (iter.Next blk).2.1.currentHash = [] := by
    rw [Next_of_empty iter blk he]; exact he
  exact ⟨hn, fun dbs blk1 => resultsOver_exhausted dbs _ blk1 hn,
    fun k blk1 => results_of_empty k _ blk1 hn, fun _ => rfl⟩

theorem C15_exhausted_stays_exhausted_witness :
    (((⟨[], Bucket.empty⟩ : BlockchainIterator).Next ⟨7, [1], [2], [3], 4⟩).2.1.resultsOver
      [danglingStore, garbledStore] ⟨0, [], [], [], 0⟩) = [false, false] :=
  (C15_exhausted_stays_exhausted ⟨[], Bucket.empty⟩ ⟨7, [1], [2], [3], 4⟩ rfl).2.1
    [danglingStore, garbledStore] ⟨0, [], [], [], 0⟩

/-- C16: `Iterator()` returns a cursor at the cached tip on the store of the
chain, and every `Next` call on a cursor leaves the store, and with it the tip
entry, as it was. -/
theorem C16_iteration_is_read_only (bc : Blockchain) :
    bc.Iterator.currentHash = bc.tip ∧ bc.Iterator.db = bc.db ∧
    (∀ (iter : BlockchainIterator) (blk : Block), (iter.Next blk).2.1.db = iter.db) ∧
    (∀ (k : Nat) (blk : Block),
      (bc.Iterator.after k blk).1.db = bc.db ∧
      (bc.Iterator.after k blk).1.db.Get tipKey = bc.db.Get tipKey) := by
  refine ⟨rfl, rfl, Next_db, ?_⟩
  intro k blk
  have h : (bc.Iterator.after k blk).1.db = bc.db := after_db k bc.Iterator blk
  exact ⟨h, by rw [h]⟩

/-- C17: `NewBlock` returns a block with the given `Data` and `PrevBlockHash`
and the clock reading as `Timestamp`; mining fills in `Hash` and `Nonce` only,
and the preimages it hashes are built from those three fields; the genesis
block has `Data = "Genesis Block"` and an empty `PrevBlockHash`. -/
theorem C17_NewBlock_fields (H : HashFn) (now : Int) (data prev : List Byte) :
    (NewBlock H now data prev).Data = data ∧
    (NewBlock H now data prev).PrevBlockHash = prev ∧
    (NewBlock H now data prev).Timestamp = now ∧
    NewBlock H now data prev =
      { (⟨now, data, prev, [], 0⟩ : Block) with
        Hash := ((NewProofOfWork ⟨now, data, prev, [], 0⟩).Run H).2,
        Nonce := ((NewProofOfWork ⟨now, data, prev, [], 0⟩).Run H).1 } ∧
    (∀ n : Int, (NewProofOfWork ⟨now, data, prev, [], 0⟩).prepareData n =
      prev ++ data ++ IntTohex (NewBlock H now data prev).Timestamp ++
        IntTohex (targetBits : Int) ++ IntTohex n) ∧
    (NewGenesisBlock H now).Data = ascii "Genesis Block" ∧
    (NewGenesisBlock H now).PrevBlockHash = [] := by
  refine ⟨rfl, rfl, rfl, rfl, ?_, ?_, rfl⟩
  · intro n
    simp [ProofOfWork.prepareData, NewProofOfWork, NewBlock]
  · show genesisData = ascii "Genesis Block"
    decide

/-- C19: for a 32-byte hash the comparison of `Run` and `Validate`, big-endian
value below `1 << (256 - targetBits)`, holds exactly when the first byte is
below 16, that is when its top four bits are zero. -/
theorem C19_target_is_first_byte (h : List Byte) (hlen : h.length = 32) :
    (beNat h < 1 <<< (256 - targetBits) ↔ (h.headD 0).val < 16) ∧
    ((h.headD 0).val < 16 ↔ (h.headD 0).val / 16 = 0) ∧
    (∀ b : Block, (NewProofOfWork b).target = 1 <<< (256 - targetBits)) := by
  refine ⟨?_, by omega, fun _ => rfl⟩
  cases h with
  | nil => simp at hlen
  | cons b t =>
    have ht : t.length = 31 := by simpa using hlen
    have hlt := beNat_lt t
    rw [ht] at hlt
    have h1 : (1 : Nat) <<< (256 - targetBits) = 16 * 256 ^ 31 := by
      simp [targetBits, Nat.shiftLeft_eq]
    rw [beNat_cons, ht, h1]
    simp only [List.headD_cons]
    generalize (256 : Nat) ^ 31 = X at hlt ⊢
    constructor
    · intro hh
      by_contra hc
      have : 16 * X ≤ b.val * X := Nat.mul_le_mul_right X (by omega)
      omega
    · intro hh
      have : b.val * X ≤ 15 * X := Nat.mul_le_mul_right X (by omega)
      omega

theorem C19_target_is_first_byte_witness :
    beNat (15 :: List.replicate 31 255) < 1 <<< (256 - targetBits) :=
  ((C19_target_is_first_byte (15 :: List.replicate 31 255) (by decide)).1).mpr (by decide)

/-- C20: `prepareData` is not injective: with the same `PrevBlockHash` and
`Data`, timestamp `0x1` with nonce `0x423` and timestamp `0x14` with nonce
`0x23` give the same preimage, ending in `14423`, and so the same hash; and
a byte can move between `Data` and the timestamp likewise. -/
theorem C20_prepareData_not_injective (H : HashFn) (prev data : List Byte) :
    (NewProofOfWork ⟨0x1, data, prev, [], 0⟩).prepareData 0x423 =
      (NewProofOfWork ⟨0x14, data, prev, [], 0⟩).prepareData 0x23 ∧
    (NewProofOfWork ⟨0x1, data, prev, [], 0⟩).prepareData 0x423 =
      prev ++ data ++ ascii "14423" ∧
    H.sum256 ((NewProofOfWork ⟨0x1, data, prev, [], 0⟩).prepareData 0x423) =
      H.sum256 ((NewProofOfWork ⟨0x14, data, prev, [], 0⟩).prepareData 0x23) ∧
    ((0x1 : Int) ≠ 0x14 ∧ (0x423 : Int) ≠ 0x23) ∧
    (NewProofOfWork ⟨0x2, data ++ [49], prev, [], 0⟩).prepareData 0 =
      (NewProofOfWork ⟨0x12, data, prev, [], 0⟩).prepareData 0 := by
  have h1 : IntTohex 0x1 ++ IntTohex (targetBits : Int) ++ IntTohex 0x423 = ascii "14423" := by
    decide
  have h2 : IntTohex 0x14 ++ IntTohex (targetBits : Int) ++ IntTohex 0x23 = ascii "14423" := by
    decide
  have h3 : [49] ++ IntTohex 0x2 = IntTohex 0x12 := by decide
  have e1 : (NewProofOfWork ⟨0x1, data, prev, [], 0⟩).prepareData 0x423 =
      prev ++ data ++ ascii "14423" := by
    rw [← h1]
    simp [ProofOfWork.prepareData, NewProofOfWork]
  have e2 : (NewProofOfWork ⟨0x14, data, prev, [], 0⟩).prepareData 0x23 =
      prev ++ data ++ ascii "14423" := by
    rw [← h2]
    simp [ProofOfWork.prepareData, NewProofOfWork]
  refine ⟨by rw [e1, e2], e1, by rw [e1, e2], ⟨by decide, by decide⟩, ?_⟩
  simp only [ProofOfWork.prepareData, NewProofOfWork, List.flatten_cons, List.flatten_nil,
    List.append_nil, List.append_assoc]
  rw [← h3]
  simp

/-! ### Claims that rest on the search succeeding or on the limits of the store -/

/-- C2: a block `b` returned by `NewBlock`, when some nonce in `[0, maxNonce)`
gives a hash below the target, stores the hash of the preimage at its own
nonce, and that preimage is
`PrevBlockHash ++ Data ++ hex(Timestamp) ++ hex(targetBits) ++ hex(Nonce)`;
hence the same holds of every such block yielded by the iterator over a chain
built with `NewBlockchain` and `AddBlock` from clock readings in `int64` and
payloads whose records the store accepts. -/
theorem C2_stored_hash (H : HashFn) :
    (∀ (now : Int) (data prev : List Byte),
      (∃ k : Int, 0 ≤ k ∧ k < maxNonce ∧
        beNat (H.sum256 ((NewProofOfWork (NewBlock H now data prev)).prepareData k)) <
          (NewProofOfWork (NewBlock H now data prev)).target) →
      (NewBlock H now data prev).Hash =
        H.sum256 ((NewProofOfWork (NewBlock H now data prev)).prepareData
          (NewBlock H now data prev).Nonce) ∧
      (NewProofOfWork (NewBlock H now data prev)).prepareData (NewBlock H now data prev).Nonce =
        (NewBlock H now data prev).PrevBlockHash ++ (NewBlock H now data prev).Data ++
          IntTohex (NewBlock H now data prev).Timestamp ++ IntTohex (targetBits : Int) ++
          IntTohex (NewBlock H now data prev).Nonce) ∧
    (∀ (now0 : Int) (adds : List (Int × List Byte)),
      (-(2 ^ 63 : Int) ≤ now0 ∧ now0 < 2 ^ 63) →
      (∀ a ∈ adds, ValidInput a.1 a.2) →
      ∀ (blk : Block) (fuel : Nat),
      ∀ b ∈ (buildChain H now0 adds).Iterator.drain fuel blk,
        (∃ k : Int, 0 ≤ k ∧ k < maxNonce ∧
          beNat (H.sum256 ((NewProofOfWork b).prepareData k)) < (NewProofOfWork b).target) →
        b.Hash = H.sum256 ((NewProofOfWork b).prepareData b.Nonce)) := by
  constructor
  · intro now data prev hfound
    refine ⟨NewBlock_Hash_eq H now data prev hfound, ?_⟩
    simp [ProofOfWork.prepareData, NewProofOfWork]
  · intro now0 adds h0 hin blk fuel b hb hfound
    have hm := StoreMined_buildChain H now0 adds h0 hin
    have hcur : (buildChain H now0 adds).tip = [] ∨
        ((buildChain H now0 adds).tip ≠ tipKey ∧
          (buildChain H now0 adds).db (buildChain H now0 adds).tip ≠ none) := by
      rw [tip_buildChain]
      exact Or.inr hm.1
    obtain ⟨now, data, p, rfl⟩ := drain_mined H _ hm fuel _ blk hcur b hb
    exact NewBlock_Hash_eq H now data p hfound

theorem C2_stored_hash_witness :
    (NewBlock sha256 0 genesisData []).Hash =
      sha256.sum256 ((NewProofOfWork (NewBlock sha256 0 genesisData [])).prepareData
        (NewBlock sha256 0 genesisData []).Nonce) ∧
    (NewGenesisBlock sha256 1700000004).Hash =
      sha256.sum256 ((NewProofOfWork (NewGenesisBlock sha256 1700000004)).prepareData
        (NewGenesisBlock sha256 1700000004).Nonce) :=
  ⟨((C2_stored_hash sha256).1 0 genesisData [] ⟨16, by decide, by decide, by decide⟩).1,
    (C2_stored_hash sha256).2 1700000004 [(1700000025, payload1), (1700000029, payload2)]
      (by decide) (by decide) ⟨0, [], [], [], 0⟩ 5
      (NewGenesisBlock sha256 1700000004) (by decide) ⟨0, by decide, by decide, by decide⟩⟩

/-- C18: when some nonce in `[0, maxNonce)` gives a hash below the target, the
nonce that `Run` returns, which is the one `NewBlock` stores, lies in
`[0, maxNonce)`, where `maxNonce = math.MaxInt64 = 2 ^ 63 - 1`. -/
theorem C18_nonce_range (H : HashFn) (now : Int) (data prev : List Byte)
    (hfound : ∃ k : Int, 0 ≤ k ∧ k < maxNonce ∧
      beNat (H.sum256 ((NewProofOfWork ⟨now, data, prev, [], 0⟩).prepareData k)) <
        (NewProofOfWork ⟨now, data, prev, [], 0⟩).target) :
    0 ≤ ((NewProofOfWork ⟨now, data, prev, [], 0⟩).Run H).1 ∧
    ((NewProofOfWork ⟨now, data, prev, [], 0⟩).Run H).1 < maxNonce ∧
    (NewBlock H now data prev).Nonce = ((NewProofOfWork ⟨now, data, prev, [], 0⟩).Run H).1 ∧
    0 ≤ (NewBlock H now data prev).Nonce ∧ (NewBlock H now data prev).Nonce < maxNonce ∧
    maxNonce = 2 ^ 63 - 1 := by
  obtain ⟨k, hk0, hk, hv⟩ := hfound
  obtain ⟨a, _, _, _, _⟩ := Run_spec H (NewProofOfWork ⟨now, data, prev, [], 0⟩)
  have hlt : ((NewProofOfWork ⟨now, data, prev, [], 0⟩).Run H).1 < maxNonce :=
    lt_of_le_of_lt (Run_found H _ k hk0 hv) hk
  exact ⟨a, hlt, rfl, a, hlt, by decide⟩

theorem C18_nonce_range_witness :
    0 ≤ (NewBlock sha256 0 genesisData []).Nonce ∧
    (NewBlock sha256 0 genesisData []).Nonce < maxNonce :=
  ⟨(C18_nonce_range sha256 0 genesisData [] ⟨16, by decide, by decide, by decide⟩).2.2.2.1,
    (C18_nonce_range sha256 0 genesisData [] ⟨16, by decide, by decide, by decide⟩).2.2.2.2.1⟩

/-- C11: in every store reached by `NewBlockchain` on an empty database and
any number of `AddBlock` calls with payloads whose records the store accepts,
the entry under the tip key `l` is a key of the store whose value is the
serialization of a block with that hash; every key is the tip key or the
32-byte hash of the block recorded under it, so the one-byte tip key is never
a block key; every entry is within the limits of the store; and writing a
block record leaves the tip entry as it was, just as writing the tip entry
leaves every block record. -/
theorem C11_tip_resolves (H : HashFn) (now0 : Int) (adds : List (Int × List Byte))
    (hin : ∀ a ∈ adds, FitsStore a.2) :
    (∃ b : Block, (buildChain H now0 adds).db.Get tipKey = b.Hash ∧
      (buildChain H now0 adds).db tipKey = some b.Hash ∧
      (buildChain H now0 adds).db ((buildChain H now0 adds).db.Get tipKey) = some b.Serialize) ∧
    (∀ k : List Byte, (buildChain H now0 adds).db k ≠ none →
      k = tipKey ∨ (k.length = 32 ∧
        ∃ b : Block, b.Hash = k ∧ (buildChain H now0 adds).db k = some b.Serialize)) ∧
    (∀ k v : List Byte, (buildChain H now0 adds).db k = some v →
      0 < k.length ∧ k.length ≤ maxKeySize ∧ v.length ≤ maxValueSize) ∧
    tipKey.length = 1 ∧
    (∀ (now : Int) (data prev : List Byte),
      (NewBlock H now data prev).Hash.length = 32 ∧ (NewBlock H now data prev).Hash ≠ tipKey) ∧
    (∀ (db : Bucket) (now : Int) (data prev v : List Byte),
      (db.Put (NewBlock H now data prev).Hash v) tipKey = db tipKey ∧
      (db.Put tipKey v) (NewBlock H now data prev).Hash = db (NewBlock H now data prev).Hash) := by
  obtain ⟨⟨b, h1, h2, _, h4⟩, hkeys⟩ := StoreInv_buildChain H now0 adds
  refine ⟨⟨b, h1, h2, ?_⟩, hkeys, StoreFits_buildChain H now0 adds hin, rfl, ?_, ?_⟩
  · rw [h1]; exact h4
  · intro now data prev
    exact ⟨NewBlock_Hash_length H now data prev, NewBlock_Hash_ne_tipKey H now data prev⟩
  · intro db now data prev v
    have hne := NewBlock_Hash_ne_tipKey H now data prev
    exact ⟨Put_apply_other _ _ _ _ (Ne.symm hne), Put_apply_other _ _ _ _ hne⟩

theorem C11_tip_resolves_witness :
    ∃ b : Block,
      (buildChain sha256 1700000004
        [(1700000025, payload1), (1700000029, payload2)]).db.Get tipKey = b.Hash ∧
      (buildChain sha256 1700000004
        [(1700000025, payload1), (1700000029, payload2)]).db tipKey = some b.Hash ∧
      (buildChain sha256 1700000004 [(1700000025, payload1), (1700000029, payload2)]).db
        ((buildChain sha256 1700000004
          [(1700000025, payload1), (1700000029, payload2)]).db.Get tipKey) = some b.Serialize :=
  (C11_tip_resolves sha256 1700000004 [(1700000025, payload1), (1700000029, payload2)]
    (by decide)).1

/-- C8: for payloads `d1..dN` added with `AddBlock` to a chain opened on an
empty store, with clock readings in `int64`, payloads whose records the store
accepts and pairwise distinct mined hashes, the loop over `Iterator()` yields
exactly the mined blocks, newest first: their `Data` is
`dN, ..., d1, "Genesis Block"`, each yielded block's `PrevBlockHash` is the
`Hash` of the block yielded next, and the last yielded block has an empty
`PrevBlockHash`. Every record written on the way is within the limit of the
store. -/
theorem C8_iteration_order (H : HashFn) (now0 : Int) (adds : List (Int × List Byte))
    (h0 : -(2 ^ 63 : Int) ≤ now0 ∧ now0 < 2 ^ 63)
    (hin : ∀ a ∈ adds, ValidInput a.1 a.2)
    (hnd : ((minedBlocks H now0 adds).map Block.Hash).Nodup)
    (blk : Block) (fuel : Nat) (hfuel : adds.length + 1 < fuel) :
    (buildChain H now0 adds).Iterator.drain fuel blk = (minedBlocks H now0 adds).reverse ∧
    ((buildChain H now0 adds).Iterator.drain fuel blk).map Block.Data =
      (adds.map Prod.snd).reverse ++ [genesisData] ∧
    List.Chain' (fun x y => x.PrevBlockHash = y.Hash)
      ((buildChain H now0 adds).Iterator.drain fuel blk) ∧
    (∀ b, ((buildChain H now0 adds).Iterator.drain fuel blk).getLast? = some b →
      b.PrevBlockHash = [] ∧ b.Data = genesisData) ∧
    (∀ b ∈ minedBlocks H now0 adds,
      b.Hash.length = 32 ∧ b.Serialize.length ≤ maxValueSize) := by
  obtain ⟨hl, _⟩ := buildChain_Linked H now0 adds h0 hin hnd
  have hlen : (minedBlocks H now0 adds).reverse.length < fuel := by
    simp only [List.length_reverse, minedBlocks, List.length_cons, minedFrom_length]
    exact hfuel
  have hd : (buildChain H now0 adds).Iterator.drain fuel blk =
      (minedBlocks H now0 adds).reverse := drain_Linked _ _ _ blk fuel hl hlen
  obtain ⟨hc1, hc2⟩ := Linked_chain _ _ _ hl
  rw [hd]
  refine ⟨rfl, ?_, hc1, ?_, minedBlocks_fits H now0 adds (fun a ha => (hin a ha).2.2)⟩
  · simp only [minedBlocks, List.reverse_cons, List.map_append, List.map_reverse,
      minedFrom_Data, List.map_cons, List.map_nil]
    rfl
  · intro b hb
    refine ⟨hc2 b hb, ?_⟩
    rw [List.getLast?_reverse] at hb
    simp only [minedBlocks, List.head?_cons, Option.some.injEq] at hb
    rw [← hb]
    rfl

theorem C8_iteration_order_witness :
    ((buildChain sha256 1700000004
        [(1700000025, payload1), (1700000029, payload2)]).Iterator.drain 5
        ⟨0, [], [], [], 0⟩).map Block.Data = [payload2, payload1, genesisData] :=
  (C8_iteration_order sha256 1700000004 [(1700000025, payload1), (1700000029, payload2)]
    (by decide) (by decide) (by decide) ⟨0, [], [], [], 0⟩ 5 (by decide)).2.1

/-- C9: for every `N`, after `NewBlockchain` on an empty store and `N` calls of
`AddBlock`, with clock readings in `int64`, payloads whose records the store
accepts and pairwise distinct mined hashes, `Next` on an iterator from
`Iterator()` returns true exactly `N + 1` times and false on every call after
that, so the loop yields `N + 1` blocks. Every record written on the way is
within the limit of the store. -/
theorem C9_chain_length (H : HashFn) (now0 : Int) (adds : List (Int × List Byte))
    (h0 : -(2 ^ 63 : Int) ≤ now0 ∧ now0 < 2 ^ 63)
    (hin : ∀ a ∈ adds, ValidInput a.1 a.2)
    (hnd : ((minedBlocks H now0 adds).map Block.Hash).Nodup)
    (blk : Block) (k : Nat) :
    (buildChain H now0 adds).Iterator.results (adds.length + 1 + k) blk =
      List.replicate (adds.length + 1) true ++ List.replicate k false ∧
    ((buildChain H now0 adds).Iterator.drain (adds.length + 2 + k) blk).length =
      adds.length + 1 ∧
    (∀ b ∈ minedBlocks H now0 adds,
      b.Hash.length = 32 ∧ b.Serialize.length ≤ maxValueSize) := by
  obtain ⟨hl, _⟩ := buildChain_Linked H now0 adds h0 hin hnd
  have hlen : (minedBlocks H now0 adds).reverse.length = adds.length + 1 := by
    simp only [List.length_reverse, minedBlocks, List.length_cons, minedFrom_length]
  refine ⟨?_, ?_, minedBlocks_fits H now0 adds (fun a ha => (hin a ha).2.2)⟩
  · have := results_Linked _ k _ _ blk hl
    rw [hlen] at this
    exact this
  · have hd : (buildChain H now0 adds).Iterator.drain (adds.length + 2 + k) blk =
        (minedBlocks H now0 adds).reverse :=
      drain_Linked _ _ _ blk _ hl (by rw [hlen]; omega)
    rw [hd, hlen]

theorem C9_chain_length_witness :
    (buildChain sha256 1700000004
        [(1700000025, payload1), (1700000029, payload2)]).Iterator.results 5
        ⟨0, [], [], [], 0⟩ = [true, true, true, false, false] :=
  (C9_chain_length sha256 1700000004 [(1700000025, payload1), (1700000029, payload2)]
    (by decide) (by decide) (by decide) ⟨0, [], [], [], 0⟩ 2).1

end BC
